import Mathlib

/-!
Verification development for the `codeparser` package of the vuddy repository.

The Python sources are shallowly embedded here:
  * `provider_re.py`  — the regex comment stripper `remove_comments_regex` is
    embedded as a deterministic left-to-right scanner `rmcRegex` that realises
    the ordered alternation `//.*?$ | /\*.*?\*/ | '(\\.|[^\\'])* ' | "(\\.|[^\\"])*"`
    of the pattern `RX_CLIKE_COMMENT` (with DOTALL and MULTILINE), replacing
    each comment match by a single space and keeping string matches verbatim.
  * `provider_tst.py` — language dispatch (`get_language`, `get_parser`,
    `function_scope`) and the function-definition capture post-processing
    (`capture_function_definitions`), with the raw query captures supplied as
    a list of byte-range/text records, since running the tree-sitter queries
    themselves is outside the repository.
  * `__init__.py`     — `remove_comments_ast` (parametrised by the list of
    comment byte spans found by the parse), `remove_comments`, `Func.__eq__`,
    `Func.code` (UTF-8 decoding with an error handler), and the abstraction
    engine `abstract_func_clike` over the stream of leaf-like nodes produced
    by `traverse(func, descend=is_inner, ret=is_leaf)`.

All text is modelled as `List Char` (named `Str` below).
-/

/-- Source text / byte-string model: a list of characters. -/
abbrev Str := List Char

namespace Vuddy

/-! ### Python error model -/

/-- The exceptions relevant to the embedded code: `KeyError` (raised by
`lang_mapping[lang]` in `get_language`), `ParseLangNotSupportError` (the
dedicated language error of `provider_tst.py`), `NotImplementedError`
(raised by `abstract_func_clike` for numbered called-function abstraction)
and `UnicodeDecodeError` (only reachable under strict decoding). -/
inductive PyErr where
  | keyError (key : Str)
  | parseLangNotSupport (lang : Str)
  | notImplementedError
  | unicodeDecodeError
  deriving DecidableEq, Repr

/-- Decidable equality on `Except`, for evaluating concrete runs. -/
instance {ε α : Type} [DecidableEq ε] [DecidableEq α] : DecidableEq (Except ε α)
  | .error e, .error f =>
    if h : e = f then .isTrue (by rw [h]) else .isFalse (by intro hc; cases hc; exact h rfl)
  | .error _, .ok _ => .isFalse (by intro hc; cases hc)
  | .ok _, .error _ => .isFalse (by intro hc; cases hc)
  | .ok a, .ok b =>
    if h : a = b then .isTrue (by rw [h]) else .isFalse (by intro hc; cases hc; exact h rfl)

/-! ### Language dispatch (`provider_tst.py` lines 21-47, 227-235) -/

/-- The three grammars that `lang_mapping` in `get_language` knows about. -/
inductive TSLanguage where
  | c
  | cpp
  | java
  deriving DecidableEq, Repr

/-- `get_language` (provider_tst.py:21-35): looks the tag up in
`lang_mapping`; an absent key raises `KeyError(lang)` (plain Python dict
indexing), not `ParseLangNotSupportError`. -/
def get_language (lang : Str) : Except PyErr TSLanguage :=
  if lang = "C".toList then .ok .c
  else if lang = "C++".toList then .ok .cpp
  else if lang = "Java".toList then .ok .java
  else .error (.keyError lang)

/-- `get_parser` (provider_tst.py:38-42): builds a parser for
`get_language(lang)`; the `KeyError` of `get_language` propagates. -/
def getParser (lang : Str) : Except PyErr TSLanguage :=
  get_language lang

/-! ### Basic text helpers -/

/-- `leadsWith pat s`: `s` starts with `pat` (Python `str.startswith`). -/
def leadsWith : Str → Str → Bool
  | [], _ => true
  | _ :: _, [] => false
  | c :: p, d :: t => c = d && leadsWith p t

/-- `hasSubstr pat s`: `pat` occurs contiguously in `s` (Python `pat in s`). -/
def hasSubstr (pat : Str) : Str → Bool
  | [] => leadsWith pat []
  | c :: t => leadsWith pat (c :: t) || hasSubstr pat t

/-- The single-quote character (written via its code point). -/
def sq : Char := Char.ofNat 39

/-- The double-quote character. -/
def dq : Char := Char.ofNat 34

/-! ### Regex comment stripper (`provider_re.py` lines 18-34)

`RX_CLIKE_COMMENT` is the ordered alternation
`//.*?$ | /\*.*?\*/ | '(\\.|[^\\'])*' | "(\\.|[^\\"])*"` compiled with
DOTALL and MULTILINE, and `re.sub` with `__replacer` rewrites every comment
match to a single space while returning string matches unchanged.  The
regex engine scans left to right; at each position the alternatives are
tried in order and each alternative is deterministic:

  * `//.*?$`   — the lazy `.*?` stops at the first position where `$`
    matches (just before a newline, or end of input);
  * `/\*.*?\*/` — the lazy `.*?` stops at the first following `*/`;
    with no `*/` the alternative fails;
  * `'(\\.|[^\\'])*'` and the double-quote twin — the starred group's two
    branches apply to disjoint first characters (a backslash always pairs
    with the next character, any other non-quote character is consumed
    alone), so the scan runs to the first unescaped closing quote and the
    alternative fails exactly when it runs off the end of the input.

The scanner below realises this procedure directly. -/

/-- Rest of the input from the first newline on (the text a `//` comment
match does not consume; the newline survives the substitution). -/
def scanLine : Str → Str
  | [] => []
  | c :: rest => if c = '\n' then c :: rest else scanLine rest

/-- Rest of the input after the first closing `*/`, if any. -/
def scanBlock : Str → Option Str
  | [] => none
  | [_] => none
  | c :: d :: rest2 => if c = '*' ∧ d = '/' then some rest2 else scanBlock (d :: rest2)

/-- Scan a quoted literal body after the opening quote `q`: returns the
matched body including the closing quote, plus the rest, or `none` when no
unescaped closing quote is reached. -/
def scanStr (q : Char) : Str → Option (Str × Str)
  | [] => none
  | c :: rest =>
    if c = q then some ([c], rest)
    else if c = '\\' then
      match rest with
      | [] => none
      | d :: rest2 =>
        match scanStr q rest2 with
        | none => none
        | some (s, r) => some (c :: d :: s, r)
    else
      match scanStr q rest with
      | none => none
      | some (s, r) => some (c :: s, r)

/-- Fuel-driven core of `remove_comments_regex`.  With fuel larger than the
input length this computes the full substitution pass. -/
def rmcGo : Nat → Str → Str
  | 0, l => l
  | _ + 1, [] => []
  | f + 1, c :: rest =>
    if c = '/' then
      match rest with
      | [] => c :: rmcGo f rest
      | d :: rest2 =>
        if d = '/' then ' ' :: rmcGo f (scanLine rest2)
        else if d = '*' then
          match scanBlock rest2 with
          | some rest3 => ' ' :: rmcGo f rest3
          | none => c :: rmcGo f rest
        else c :: rmcGo f rest
    else if c = sq ∨ c = dq then
      match scanStr c rest with
      | some (s, r) => c :: (s ++ rmcGo f r)
      | none => c :: rmcGo f rest
    else
      c :: rmcGo f rest

/-- `remove_comments_regex` (provider_re.py:32-34). -/
def remove_comments_regex (code : Str) : Str :=
  rmcGo (code.length + 1) code

/-! ### `Func.__eq__` (__init__.py lines 162-171) -/

/-- Python whitespace class `\s` (the ASCII members, which are the only
ones the embedded inputs contain). -/
def isPyWs (c : Char) : Bool :=
  c = ' ' || c = '\t' || c = '\n' || c = '\r' || c = Char.ofNat 11 || c = Char.ofNat 12

/-- `re.sub(r"\s+", "", s)`: delete every whitespace character. -/
def stripWs (s : Str) : Str := s.filter (fun c => !(isPyWs c))

/-- `Func.__eq__` on the decoded code texts of the two sides: strip
comments with `remove_comments_regex`, delete all whitespace, compare. -/
def funcEq (code1 code2 : Str) : Bool :=
  stripWs (remove_comments_regex code1) = stripWs (remove_comments_regex code2)

/-! ### Tree-accurate comment stripper (`__init__.py` lines 85-103)

`remove_comments_ast` parses the code and walks the tree in preorder,
collecting the byte span of every node typed `comment`, `line_comment` or
`block_comment` with a nonempty span, then rebuilds the output: the text
before each span verbatim, then one `\n` per newline inside the span, then
continues after the span.  Parsing is done by the external tree-sitter
library, so the embedding takes the collected comment spans as an input;
the preorder walk of a tree whose comment nodes do not nest delivers them
in ascending, pairwise disjoint order, which is the `SpanChain` hypothesis
used by the theorems. -/

/-- Python slice `code[a:b]` (for `a ≤ b`; both clamp at the length). -/
def slice (code : Str) (a b : Nat) : Str := (code.drop a).take (b - a)

/-- Number of newline characters (`bytes.count(b"\n")`). -/
def countNl (s : Str) : Nat := s.count '\n'

/-- The rebuilding loop of `remove_comments_ast`: `last` is the cursor
after the previously processed span. -/
def rcaGo (code : Str) : Nat → List (Nat × Nat) → Str
  | last, [] => code.drop last
  | last, (s, e) :: rest =>
    slice code last s ++ List.replicate (countNl (slice code s e)) '\n' ++ rcaGo code e rest

/-- `remove_comments_ast` with the comment spans of the parse supplied. -/
def remove_comments_ast (code : Str) (spans : List (Nat × Nat)) : Str :=
  rcaGo code 0 spans

/-- The comment spans produced by a preorder walk of a syntax tree are
ascending and pairwise disjoint: each span starts no earlier than the
previous cursor and ends before the next span starts, all within the
input. -/
def SpanChain (code : Str) : Nat → List (Nat × Nat) → Prop
  | last, [] => last ≤ code.length
  | last, (s, e) :: rest => last ≤ s ∧ s ≤ e ∧ SpanChain code e rest

/-- `remove_comments` (__init__.py:119-129): the three grammar-backed
languages take the regex fast path; any other tag goes through
`remove_comments_ast`, whose `parse_ast` call reaches `get_parser` and
hence raises the `KeyError` of `get_language`.  The comment spans the
parse would produce are passed in for the (never taken for supported
tags) tree path. -/
def remove_comments (code : Str) (lang : Str) (spans : List (Nat × Nat)) :
    Except PyErr Str :=
  if lang = "C".toList ∨ lang = "C++".toList ∨ lang = "Java".toList then
    .ok (remove_comments_regex code)
  else
    match getParser lang with
    | .error e => .error e
    | .ok _ => .ok (remove_comments_ast code spans)

/-! ### Scope resolution (`provider_tst.py` lines 181-235) -/

/-- What `function_scope_cpp` / `function_scope_java` read off one
ancestor of the name node: its node type and, when present, the text of
its `name` / `scope` field child. -/
structure Anc where
  ty : Str
  nameText : Option Str
  scopeText : Str
  deriving DecidableEq, Repr

/-- Python `str.split("::")` (leftmost, non-overlapping). -/
def splitColons : Str → Str → List Str
  | acc, [] => [acc.reverse]
  | acc, ':' :: ':' :: rest => acc.reverse :: splitColons [] rest
  | acc, c :: rest => splitColons (c :: acc) rest

/-- `function_scope_cpp` (provider_tst.py:191-212): walk the ancestors of
the name node innermost first, accumulate namespace name components
(anonymous namespaces contribute an empty string), class/struct names and
qualified-identifier scopes, then reverse. -/
def function_scope_cpp (ancs : List Anc) : List Str :=
  (ancs.foldl
    (fun res p =>
      if p.ty = "namespace_definition".toList then
        match p.nameText with
        | some nm => res ++ splitColons [] nm
        | none => res ++ [[]]
      else if p.ty = "class_specifier".toList ∨ p.ty = "struct_specifier".toList then
        res ++ [p.nameText.getD []]
      else if p.ty = "qualified_identifier".toList then
        res ++ [p.scopeText]
      else res)
    []).reverse

/-- `function_scope_java` (provider_tst.py:215-224). -/
def function_scope_java (ancs : List Anc) : List Str :=
  (ancs.foldl
    (fun res p =>
      if p.ty = "class_declaration".toList then res ++ [p.nameText.getD []] else res)
    []).reverse

/-- `function_scope` (provider_tst.py:227-235): dispatch on the language
tag; an unsupported tag raises `ParseLangNotSupportError(lang)`. -/
def function_scope (lang : Str) (ancs : List Anc) : Except PyErr (List Str) :=
  if lang = "C".toList then .ok []
  else if lang = "C++".toList then .ok (function_scope_cpp ancs)
  else if lang = "Java".toList then .ok (function_scope_java ancs)
  else .error (.parseLangNotSupport lang)

/-! ### Function-definition capture (`provider_tst.py` lines 100-157) -/

/-- One raw query capture: the byte range and text of a captured node. -/
structure Cap where
  start_byte : Nat
  end_byte : Nat
  text : Str
  deriving DecidableEq, Repr

/-- The control-flow keywords of the false-positive guard. -/
def badLeads : List Str :=
  ["else".toList, "if".toList, "for".toList, "while".toList,
   "do".toList, "switch".toList, "case".toList, "default".toList]

/-- The nested-capture filter (provider_tst.py:140-146): drop a capture
whose byte range is strictly inside another capture's byte range. -/
def dropNested (caps : List Cap) : List Cap :=
  caps.filter (fun n =>
    !(caps.any (fun x =>
        decide (x.start_byte < n.start_byte) && decide (n.end_byte < x.end_byte))))

/-- The keyword guard (provider_tst.py:148-155): drop captures whose text
starts with one of the control-flow keywords. -/
def dropKeyword (caps : List Cap) : List Cap :=
  caps.filter (fun n => !(badLeads.any (fun p => leadsWith p n.text)))

/-- `capture_function_definitions` (provider_tst.py:133-157): the query
table `FUNCTION_DEFINITION_CAPTURES` has entries for exactly C, C++ and
Java; a missing entry raises `ParseLangNotSupportError(lang)`; otherwise
the raw captures are filtered by `dropNested` then `dropKeyword`. -/
def capture_function_definitions (lang : Str) (caps : List Cap) :
    Except PyErr (List Cap) :=
  if lang = "C".toList ∨ lang = "C++".toList ∨ lang = "Java".toList then
    .ok (dropKeyword (dropNested caps))
  else
    .error (.parseLangNotSupport lang)

/-- Strict byte-range nesting: `n` strictly inside `x` on both ends (the
relation the `dropNested` filter tests). -/
def StrictIn (n x : Cap) : Prop :=
  x.start_byte < n.start_byte ∧ n.end_byte < x.end_byte

/-- Byte ranges `[start, end)` of two captures do not overlap. -/
def RangeDisjoint (a b : Cap) : Prop :=
  a.end_byte ≤ b.start_byte ∨ b.end_byte ≤ a.start_byte

/-- Range containment (possibly sharing an endpoint): `n` inside `x`. -/
def RangeIn (n x : Cap) : Prop :=
  x.start_byte ≤ n.start_byte ∧ n.end_byte ≤ x.end_byte

/-! ### `Func.code` — UTF-8 decoding (`__init__.py` lines 218-220)

`self.code_bytes.decode(errors="ignore")`: CPython's UTF-8 decoder with
the chosen error handler.  `strict` raises `UnicodeDecodeError`, `ignore`
drops the offending bytes, `replace` substitutes U+FFFD.  The embedding
advances one byte per error event (CPython groups a truncated multi-byte
prefix into one event, which changes only how many U+FFFD a `replace`
decode emits, not the `ignore` output used by `Func.code`). -/

/-- Python decoding error handlers. -/
inductive DecMode where
  | strict
  | ignoreErrors
  | replaceErrors
  deriving DecidableEq, Repr

/-- The U+FFFD replacement character. -/
def replChar : Char := Char.ofNat 0xFFFD

/-- A UTF-8 continuation byte. -/
def isCont (b : Nat) : Bool := 0x80 ≤ b && b ≤ 0xBF

/-- Fuel-driven UTF-8 decode of a byte list under an error handler. -/
def dec8 : Nat → DecMode → List Nat → Except PyErr Str
  | 0, _, _ => .ok []
  | _ + 1, _, [] => .ok []
  | f + 1, m, b :: rest =>
    let bad : List Nat → Except PyErr Str := fun tail =>
      match m with
      | .strict => .error .unicodeDecodeError
      | .ignoreErrors => dec8 f m tail
      | .replaceErrors => (dec8 f m tail).map (replChar :: ·)
    if b ≤ 0x7F then
      (dec8 f m rest).map (Char.ofNat b :: ·)
    else if 0xC2 ≤ b ∧ b ≤ 0xDF then
      match rest with
      | b1 :: rest1 =>
        if isCont b1 then
          (dec8 f m rest1).map (Char.ofNat ((b - 0xC0) * 0x40 + (b1 - 0x80)) :: ·)
        else bad rest
      | [] => bad rest
    else if 0xE0 ≤ b ∧ b ≤ 0xEF then
      match rest with
      | b1 :: b2 :: rest2 =>
        let lo1 : Nat := if b = 0xE0 then 0xA0 else 0x80
        let hi1 : Nat := if b = 0xED then 0x9F else 0xBF
        if (lo1 ≤ b1 && b1 ≤ hi1) && isCont b2 then
          (dec8 f m rest2).map
            (Char.ofNat ((b - 0xE0) * 0x1000 + (b1 - 0x80) * 0x40 + (b2 - 0x80)) :: ·)
        else bad rest
      | _ => bad rest
    else if 0xF0 ≤ b ∧ b ≤ 0xF4 then
      match rest with
      | b1 :: b2 :: b3 :: rest3 =>
        let lo1 : Nat := if b = 0xF0 then 0x90 else 0x80
        let hi1 : Nat := if b = 0xF4 then 0x8F else 0xBF
        if ((lo1 ≤ b1 && b1 ≤ hi1) && isCont b2) && isCont b3 then
          (dec8 f m rest3).map
            (Char.ofNat ((b - 0xF0) * 0x40000 + (b1 - 0x80) * 0x1000
              + (b2 - 0x80) * 0x40 + (b3 - 0x80)) :: ·)
        else bad rest
      | _ => bad rest
    else bad rest

/-- Decode a byte string under an error handler. -/
def bytesDecode (m : DecMode) (bs : List Nat) : Except PyErr Str :=
  dec8 (bs.length + 1) m bs

/-- `Func.code`: `self.code_bytes.decode(errors="ignore")`. -/
def func_code (bs : List Nat) : Except PyErr Str :=
  bytesDecode .ignoreErrors bs

/-! ### Decimal rendering of counters (Python f-string `f"LVAR.."`) -/

/-- Fuel-driven decimal digits accumulator. -/
def natDecGo : Nat → Nat → Str → Str
  | 0, _, acc => acc
  | f + 1, n, acc =>
    let d : Char := Char.ofNat (48 + n % 10)
    if n < 10 then d :: acc else natDecGo f (n / 10) (d :: acc)

/-- Decimal rendering of a natural number. -/
def natDec (n : Nat) : Str := natDecGo (n + 1) n []

/-- Reference decimal digits (structurally convenient for proofs). -/
def digitsDec (n : Nat) : Str :=
  if _ : n < 10 then [Char.ofNat (48 + n % 10)]
  else digitsDec (n / 10) ++ [Char.ofNat (48 + n % 10)]
decreasing_by exact Nat.div_lt_self (by omega) (by omega)

/-- Decimal value of a digit string (left inverse of `digitsDec`). -/
def decVal (s : Str) : Nat := s.foldl (fun a c => 10 * a + (c.toNat - 48)) 0

/-! ### Abstraction engine (`__init__.py` lines 353-569)

`abstract_func_clike` walks `traverse(func, descend=is_inner, ret=is_leaf)`
— the stream of leaf-like nodes in document order — and classifies each
leaf by its type, its parent's type and its declarator-chain root
(`is_decl_lvar` / `is_decl_fparam`, lines 353-362, walk upward while the
current node is its parent's `declarator` field child and look at the type
reached).  Each consumed leaf carries exactly that context here.  The
emission records carry, besides the token the code appends to `output`, a
ghost category and the original node text, used only to state theorems;
the code's output is the token projection. -/

/-- `ABST_WITH_NUM` (__init__.py:366). -/
def ABST_WITH_NUM : Nat := 1

/-- `ABST_AS_TYPE` (__init__.py:367). -/
def ABST_AS_TYPE : Nat := 2

/-- `ABST_NON_SYS` (__init__.py:368). -/
def ABST_NON_SYS : Nat := 4

/-- The keyword arguments of `abstract_func_clike` (Python ints; `0` is
the only falsy value that occurs). -/
structure Policy where
  abstract_fname : Nat := ABST_AS_TYPE
  abstract_lvar : Nat := ABST_WITH_NUM
  abstract_fparam : Nat := ABST_WITH_NUM
  abstract_label : Nat := ABST_AS_TYPE
  abstract_gsym : Nat := ABST_WITH_NUM
  abstract_field : Nat := 0
  abstract_type : Nat := 0
  abstract_literal : Nat := 0
  abstract_func_call : Nat := 0
  deriving DecidableEq, Repr

/-- One leaf-like node of the traversal together with the context the
classifier reads: node type, node text, parent type, whether the node is
its parent's `declarator` field child, and the type of the node reached by
the `is_decl_lvar`/`is_decl_fparam` upward walk.  (For a parentless leaf
the Python would fail on `node.parent.type`; such leaves do not occur
below a real function node and carry `[]` as parent type here.) -/
structure Leaf where
  ty : Str
  text : Str
  parentTy : Str
  isDeclChild : Bool
  chainRootTy : Str
  deriving DecidableEq, Repr

/-- The node types `is_leaf` (__init__.py:412-419) treats as atomic. -/
def atomicTypes : List Str :=
  ["concatenated_string".toList, "string_literal".toList,
   "char_literal".toList, "number_literal".toList,
   "sized_type_specifier".toList]

/-- The literal node types of the literal branch (__init__.py:510-515). -/
def literalTypes : List Str :=
  ["concatenated_string".toList, "string_literal".toList,
   "char_literal".toList, "number_literal".toList]

/-- The string-like literal types mapped to `STR` (__init__.py:520-523). -/
def strLiteralTypes : List Str :=
  ["concatenated_string".toList, "string_literal".toList, "char_literal".toList]

/-- The type-leaf types of the type branch (__init__.py:498). -/
def typeLeafTypes : List Str :=
  ["sized_type_specifier".toList, "primitive_type".toList, "type_identifier".toList]

/-- The storage/qualifier keywords dropped outright (__init__.py:555-563). -/
def dropTypes : List Str :=
  ["static".toList, "const".toList, "volatile".toList, "inline".toList,
   "extern".toList, "register".toList, "typedef".toList]

/-- The branches of the `elif` chain of `abstract_func_clike`, in source
order; `branchOf` evaluates the guards in exactly that order. -/
inductive Br where
  | fname
  | fparam
  | lvar
  | fieldId
  | labelDef
  | gotoLabel
  | tyLeaf
  | literal
  | callee
  | ident
  | dropKw
  | passthrough
  deriving DecidableEq, Repr

/-- The guard chain (__init__.py:425-566). -/
def branchOf (l : Leaf) : Br :=
  if l.parentTy = "function_declarator".toList ∧ l.isDeclChild then .fname
  else if l.ty = "identifier".toList ∧ l.chainRootTy = "parameter_declaration".toList then
    .fparam
  else if l.ty = "identifier".toList ∧ l.chainRootTy = "declaration".toList then .lvar
  else if l.ty = "field_identifier".toList then .fieldId
  else if l.parentTy = "labeled_statement".toList ∧ l.ty = "statement_identifier".toList then
    .labelDef
  else if l.parentTy = "goto_statement".toList ∧ l.ty = "statement_identifier".toList then
    .gotoLabel
  else if l.ty ∈ typeLeafTypes then .tyLeaf
  else if l.ty ∈ literalTypes then .literal
  else if l.parentTy = "call_expression".toList ∧ l.ty = "identifier".toList then .callee
  else if l.ty = "identifier".toList then .ident
  else if hasSubstr "comment".toList l.ty ∨ l.ty ∈ dropTypes then .dropKw
  else .passthrough

/-- Ghost category of an emission: which placeholder map interaction
produced it.  `lvarAbs`/`fparamAbs` are the abstracted declaration sites
that write `lvar_map`; `mapUse` is the identifier branch reading
`lvar_map`; everything else is `other`. -/
inductive ECat where
  | lvarAbs
  | fparamAbs
  | mapUse
  | other
  deriving DecidableEq, Repr

/-- One `output.append` of the engine, with ghost origin data. -/
structure Em where
  cat : ECat
  orig : Str
  tok : Str
  deriving DecidableEq, Repr

/-- The mutable state of one `abstract_func_clike` run: the five
placeholder dicts and the per-prefix counters of `alloc_number` (the
`counts` defaultdict is only ever keyed by these six prefixes). -/
structure AbsState where
  lvar_map : List (Str × Str) := []
  symbol_map : List (Str × Str) := []
  label_map : List (Str × Str) := []
  field_map : List (Str × Str) := []
  vtype_map : List (Str × Str) := []
  cLVAR : Nat := 0
  cFPARAM : Nat := 0
  cLABEL : Nat := 0
  cFIELD : Nat := 0
  cVTYPE : Nat := 0
  cGSYM : Nat := 0
  deriving DecidableEq, Repr

/-- Dict lookup (newest binding first, so prepending a pair is dict
assignment). -/
def mfind : List (Str × Str) → Str → Option Str
  | [], _ => none
  | (k, v) :: rest, t => if k = t then some v else mfind rest t

/-- The empty starting state of a run. -/
def st0 : AbsState := {}

/-- Process one leaf: the body of the `for node in traverse(...)` loop
(__init__.py:424-567).  Returns the updated state and the emissions, or
the `NotImplementedError` of the called-function branch. -/
def step (sysFunc : List Str) (pol : Policy) (st : AbsState) (l : Leaf) :
    Except PyErr (AbsState × List Em) :=
  match branchOf l with
  | .fname =>
    if pol.abstract_fname = 0 then .ok (st, [⟨.other, l.text, l.text⟩])
    else .ok (st, [⟨.other, l.text, "FNAME".toList⟩])
  | .fparam =>
    if pol.abstract_fparam = 0 then .ok (st, [⟨.other, l.text, l.text⟩])
    else if pol.abstract_fparam = ABST_WITH_NUM then
      let tok := "FPARAM".toList ++ natDec st.cFPARAM;
      .ok ({ st with
           lvar_map := ((l.text, tok) :: st.lvar_map),
           cFPARAM := st.cFPARAM + 1 },
           [⟨.fparamAbs, l.text, tok⟩])
    else
      .ok ({ st with lvar_map := (l.text, "FPARAM".toList) :: st.lvar_map },
           [⟨.fparamAbs, l.text, "FPARAM".toList⟩])
  | .lvar =>
    if pol.abstract_lvar = 0 then .ok (st, [⟨.other, l.text, l.text⟩])
    else if pol.abstract_lvar = ABST_WITH_NUM then
      let tok := "LVAR".toList ++ natDec st.cLVAR;
      .ok ({ st with
           lvar_map := ((l.text, tok) :: st.lvar_map),
           cLVAR := st.cLVAR + 1 },
           [⟨.lvarAbs, l.text, tok⟩])
    else
      .ok ({ st with lvar_map := (l.text, "LVAR".toList) :: st.lvar_map },
           [⟨.lvarAbs, l.text, "LVAR".toList⟩])
  | .fieldId =>
    if pol.abstract_field = 0 then .ok (st, [⟨.other, l.text, l.text⟩])
    else if pol.abstract_lvar = ABST_WITH_NUM then
      match mfind st.field_map l.text with
      | some tok => .ok (st, [⟨.other, l.text, tok⟩])
      | none =>
        let tok := "FIELD".toList ++ natDec st.cFIELD;
        .ok ({ st with
           field_map := ((l.text, tok) :: st.field_map),
           cFIELD := st.cFIELD + 1 },
             [⟨.other, l.text, tok⟩])
    else
      .ok ({ st with field_map := (l.text, "FIELD".toList) :: st.field_map },
           [⟨.other, l.text, "FIELD".toList⟩])
  | .labelDef =>
    if pol.abstract_label = 0 then .ok (st, [⟨.other, l.text, l.text⟩])
    else if pol.abstract_lvar = ABST_WITH_NUM then
      let tok := "LABEL".toList ++ natDec st.cLABEL;
      .ok ({ st with
           label_map := ((l.text, tok) :: st.label_map),
           cLABEL := st.cLABEL + 1 },
           [⟨.other, l.text, tok⟩])
    else .ok (st, [⟨.other, l.text, "LABEL".toList⟩])
  | .gotoLabel =>
    if pol.abstract_label = 0 then .ok (st, [])
    else if pol.abstract_lvar = ABST_WITH_NUM then
      match mfind st.label_map l.text with
      | some tok => .ok (st, [⟨.other, l.text, tok⟩])
      | none =>
        let tok := "LABEL".toList ++ natDec st.cLABEL;
        .ok ({ st with
           label_map := ((l.text, tok) :: st.label_map),
           cLABEL := st.cLABEL + 1 },
             [⟨.other, l.text, tok⟩])
    else .ok (st, [⟨.other, l.text, "LABEL".toList⟩])
  | .tyLeaf =>
    if pol.abstract_type = 0 then .ok (st, [⟨.other, l.text, l.text⟩])
    else if pol.abstract_type = ABST_WITH_NUM then
      match mfind st.vtype_map l.text with
      | some tok => .ok (st, [⟨.other, l.text, tok⟩])
      | none =>
        let tok := "VTYPE".toList ++ natDec st.cVTYPE;
        .ok ({ st with
           vtype_map := ((l.text, tok) :: st.vtype_map),
           cVTYPE := st.cVTYPE + 1 },
             [⟨.other, l.text, tok⟩])
    else .ok (st, [⟨.other, l.text, "VTYPE".toList⟩])
  | .literal =>
    if pol.abstract_literal = 0 then .ok (st, [⟨.other, l.text, l.text⟩])
    else if l.ty ∈ strLiteralTypes then .ok (st, [⟨.other, l.text, "STR".toList⟩])
    else .ok (st, [⟨.other, l.text, "NUM".toList⟩])
  | .callee =>
    if pol.abstract_func_call = 0 then .ok (st, [⟨.other, l.text, l.text⟩])
    else if pol.abstract_func_call &&& ABST_WITH_NUM ≠ 0 then .error .notImplementedError
    else if pol.abstract_func_call &&& ABST_NON_SYS ≠ 0 then
      if l.text ∈ sysFunc then .ok (st, [⟨.other, l.text, l.text⟩])
      else .ok (st, [⟨.other, l.text, "FCALL".toList⟩])
    else .ok (st, [⟨.other, l.text, "FCALL".toList⟩])
  | .ident =>
    match mfind st.lvar_map l.text with
    | some tok => .ok (st, [⟨.mapUse, l.text, tok⟩])
    | none =>
      if pol.abstract_gsym = 0 then .ok (st, [⟨.other, l.text, l.text⟩])
      else if pol.abstract_gsym = ABST_WITH_NUM then
        match mfind st.symbol_map l.text with
        | some tok => .ok (st, [⟨.other, l.text, tok⟩])
        | none =>
          let tok := "GSYM".toList ++ natDec st.cGSYM;
          .ok ({ st with
           symbol_map := ((l.text, tok) :: st.symbol_map),
           cGSYM := st.cGSYM + 1 },
               [⟨.other, l.text, tok⟩])
      else .ok (st, [⟨.other, l.text, "GSYM".toList⟩])
  | .dropKw => .ok (st, [])
  | .passthrough => .ok (st, [⟨.other, l.text, l.text⟩])

/-- Run the loop over the whole leaf stream, collecting emissions. -/
def runAbs (sysFunc : List Str) (pol : Policy) (st : AbsState) :
    List Leaf → Except PyErr (List Em)
  | [] => .ok []
  | l :: ls =>
    match step sysFunc pol st l with
    | .error e => .error e
    | .ok (st1, ems) =>
      match runAbs sysFunc pol st1 ls with
      | .error e => .error e
      | .ok rest => .ok (ems ++ rest)

/-- `abstract_func_clike`: run from the empty state and project the ghost
emission records onto the byte strings the code appends to `output`. -/
def abstract_func_clike (sysFunc : List Str) (pol : Policy) (leaves : List Leaf) :
    Except PyErr (List Str) :=
  match runAbs sysFunc pol st0 leaves with
  | .error e => .error e
  | .ok ems => .ok (ems.map Em.tok)

/-! ### Concrete syntax trees

A tree-sitter node, for the purpose of the traversal of
`abstract_func_clike`: node type, node text (the source slice it covers —
kept only where the engine reads it, at leaf-like nodes), the index of the
child that carries the `declarator` field (if any), and the children. -/

inductive TNode where
  | mk (ty : Str) (text : Str) (declIdx : Option Nat) (children : List TNode)

/-- Node type. -/
def TNode.ty : TNode → Str
  | .mk t _ _ _ => t

/-- Node text. -/
def TNode.text : TNode → Str
  | .mk _ x _ _ => x

/-- Index of the `declarator` field child. -/
def TNode.declIdx : TNode → Option Nat
  | .mk _ _ d _ => d

/-- Children. -/
def TNode.children : TNode → List TNode
  | .mk _ _ _ cs => cs

/-- `is_leaf` (__init__.py:412-419): childless, or one of the atomic
literal/sized-type nodes. -/
def isLeafN (n : TNode) : Bool :=
  n.children.isEmpty || n.ty ∈ atomicTypes

/-- Fuel-driven preorder collection of the leaf-like nodes together with
their classifier context (`traverse` with `descend = is_inner`,
`ret = is_leaf`, provider_tst.py:238-257).  `pTy` is the parent type
(`none` at the root), `isDecl` whether this node is its parent's
`declarator` field child, `pChain` the declarator-chain root type of the
parent. -/
def leavesGo : Nat → Option Str → Bool → Str → TNode → List Leaf
  | 0, _, _, _, _ => []
  | f + 1, pTy, isDecl, pChain, n =>
    let chain := if isDecl then pChain else n.ty
    if isLeafN n then
      [⟨n.ty, n.text, pTy.getD [], isDecl, chain⟩]
    else
      (n.children.enum.map (fun ic =>
        leavesGo f (some n.ty) (n.declIdx = some ic.1) chain ic.2)).flatten

/-- Fuel bound for the traversal; far above the depth of every concrete
tree in this file. -/
def treeFuel : Nat := 1000

/-- The leaf stream of a tree. -/
def treeLeaves (n : TNode) : List Leaf :=
  leavesGo treeFuel none false n.ty n

/-- Shorthand for building nodes. -/
def tn (ty : String) (text : String) (declIdx : Option Nat) (children : List TNode) :
    TNode :=
  .mk ty.toList text.toList declIdx children

/-- Shorthand for leaf nodes of the tree. -/
def tl (ty : String) (text : String) : TNode :=
  .mk ty.toList text.toList none []

/-- An anonymous keyword/punctuation node (type equals its text). -/
def tk (text : String) : TNode :=
  .mk text.toList text.toList none []

/-- `int f() { ... }` skeleton: a C `function_definition` with the given
body statements. -/
def funcDef (body : List TNode) : TNode :=
  tn "function_definition" "" (some 1)
    [tl "primitive_type" "int",
     tn "function_declarator" "" (some 0)
       [tl "identifier" "f",
        tn "parameter_list" "" none [tk "(", tk ")"]],
     tn "compound_statement" "" none ([tk "\x7b"] ++ body ++ [tk "\x7d"])]

/-- `int x;` — a local-variable declaration of `x`. -/
def declInt (x : String) : TNode :=
  tn "declaration" "" (some 1) [tl "primitive_type" "int", tl "identifier" x, tk ";"]

/-- `x;` — an expression statement using the identifier `x`. -/
def useOf (x : String) : TNode :=
  tn "expression_statement" "" none [tl "identifier" x, tk ";"]

/-- C2 counterexample tree:
`int f() { int x; x; { int x; } }` — the same local name `x` is declared
twice (the second time in a nested block, as C allows). -/
def ceTree2 : TNode :=
  funcDef
    [declInt "x", useOf "x",
     tn "compound_statement" "" none [tk "\x7b", declInt "x", tk "\x7d"]]

/-- C3 counterexample tree:
`int f() { static int x; goto err; err: x; }` — contains a storage-class
keyword and a `goto` label reference. -/
def ceTree3 : TNode :=
  funcDef
    [tn "declaration" "" (some 2)
       [tn "storage_class_specifier" "" none [tk "static"],
        tl "primitive_type" "int", tl "identifier" "x", tk ";"],
     tn "goto_statement" "" none
       [tk "goto", tl "statement_identifier" "err", tk ";"],
     tn "labeled_statement" "" none
       [tl "statement_identifier" "err", tk ":", useOf "x"]]

/-- C10 counterexample tree: `int f() { return 1; }` — no call
expression anywhere. -/
def ceTree10 : TNode :=
  funcDef
    [tn "return_statement" "" none [tk "return", tl "number_literal" "1", tk ";"]]

/-- A tree with a call: `int f() { g(); }`. -/
def callTree : TNode :=
  funcDef
    [tn "expression_statement" "" none
       [tn "call_expression" "" none
          [tl "identifier" "g",
           tn "argument_list" "" none [tk "(", tk ")"]],
        tk ";"]]

/-- A field-access leaf as the classifier sees it (`s.len`). -/
def fieldLeaf : Leaf :=
  ⟨"field_identifier".toList, "len".toList, "field_expression".toList, false,
   "field_identifier".toList⟩

/-- The all-keep policy of claim C3 (every selector falsy). -/
def pol0 : Policy :=
  { abstract_fname := 0, abstract_lvar := 0, abstract_fparam := 0,
    abstract_label := 0, abstract_gsym := 0, abstract_field := 0,
    abstract_type := 0, abstract_literal := 0, abstract_func_call := 0 }

/-- The default policy of the source's keyword arguments. -/
def polDefault : Policy := {}

/-! ### Auxiliary definitions for the theorems -/

/-- Left edge of the `i`-th non-comment chunk of `remove_comments_ast`
(`last` is the cursor the remaining spans are processed from): the end of
the `i`-th span, or the cursor for `i = 0`. -/
def endAtL (last : Nat) : List (Nat × Nat) → Nat → Nat
  | _, 0 => last
  | [], _ + 1 => last
  | (_, e) :: rest, i + 1 => endAtL e rest i

/-- Right edge of the `i`-th non-comment chunk: the start of the next
span, or the end of the input after the last span. -/
def startAtL (code : Str) : List (Nat × Nat) → Nat → Nat
  | [], _ => code.length
  | (s, _) :: _, 0 => s
  | _ :: rest, i + 1 => startAtL code rest i

/-- The numbered local-variable placeholder `LVAR{k}` of `alloc_number`. -/
def lvarNumTok (k : Nat) : Str := "LVAR".toList ++ natDec k

/-- A token of the numbered local-variable placeholder form. -/
def IsLvarNumTok (tok : Str) : Prop := ∃ k, tok = lvarNumTok k

/-- Emission categories that interact with `lvar_map` (the
declaration-site writes and the identifier-branch reads). -/
def relevantCat (c : ECat) : Prop :=
  c = ECat.lvarAbs ∨ c = ECat.fparamAbs ∨ c = ECat.mapUse

/-- C1 counterexample capture list: two function-definition captures of
one tree where the inner node shares its start byte with the outer one
(ranges `[0,20)` and `[0,9)`, nested but not strictly nested). -/
def capsCE : List Cap :=
  [⟨0, 20, "int f() \x7bint g()\x7b\x7d\x7d".toList⟩,
   ⟨0, 9, "int f() \x7b".toList⟩]

/-- Tree-shaped range configuration: any two captured ranges are disjoint
or one contains the other (the invariant ranges of nodes of one syntax
tree satisfy). -/
def TreeShaped (caps : List Cap) : Prop :=
  caps.Pairwise (fun a b => RangeDisjoint a b ∨ RangeIn a b ∨ RangeIn b a)

/-- Strictly-tree-shaped ranges: containment between two distinct
captures is strict on both ends. -/
def StrictTreeShaped (caps : List Cap) : Prop :=
  caps.Pairwise (fun a b => RangeDisjoint a b ∨ StrictIn a b ∨ StrictIn b a)

/-- A token `LVAR{k}` is associated to an original text `t`, either
through an already-recorded `lvar_map`-relevant emission or through a live
`lvar_map` entry. -/
def RelTok (m : List (Str × Str)) (ems : List Em) (k : Nat) (t : Str) : Prop :=
  (∃ em ∈ ems, relevantCat em.cat ∧ em.orig = t ∧ em.tok = lvarNumTok k)
  ∨ mfind m t = some (lvarNumTok k)

/-- Run invariant for the collision-freedom of numbered local-variable
placeholders: every `LVAR{k}` in the map or in a relevant emission has
`k` below the counter, and each `k` is associated to at most one original
text. -/
def Inv1 (st : AbsState) (ems : List Em) : Prop :=
  (∀ t tok, mfind st.lvar_map t = some tok → ∀ k, tok = lvarNumTok k → k < st.cLVAR)
  ∧ (∀ em ∈ ems, relevantCat em.cat → ∀ k, em.tok = lvarNumTok k → k < st.cLVAR)
  ∧ (∀ k t1 t2, RelTok st.lvar_map ems k t1 → RelTok st.lvar_map ems k t2 → t1 = t2)

/-- A leaf that (re)binds `lvar_map` at the original text `t`: a
parameter- or local-variable-declaration identifier with text `t`. -/
def declSite (t : Str) (l : Leaf) : Bool :=
  (decide (branchOf l = Br.fparam) || decide (branchOf l = Br.lvar))
    && decide (l.text = t)

/-- C2 witness tree: `int f() \x7b int x; x; \x7d` — one declaration of
`x` and one later use. -/
def wTree2 : TNode := funcDef [declInt "x", useOf "x"]

/-- The emission record of running the default policy over `wTree2`. -/
def wEms : List Em :=
  [⟨.other, "int".toList, "int".toList⟩,
   ⟨.other, "f".toList, "FNAME".toList⟩,
   ⟨.other, "(".toList, "(".toList⟩,
   ⟨.other, ")".toList, ")".toList⟩,
   ⟨.other, "\x7b".toList, "\x7b".toList⟩,
   ⟨.other, "int".toList, "int".toList⟩,
   ⟨.lvarAbs, "x".toList, "LVAR0".toList⟩,
   ⟨.other, ";".toList, ";".toList⟩,
   ⟨.mapUse, "x".toList, "LVAR0".toList⟩,
   ⟨.other, ";".toList, ";".toList⟩,
   ⟨.other, "\x7d".toList, "\x7d".toList⟩]

/-- Decidability of the span-chain hypothesis, for concrete witnesses. -/
instance spanChainDec (code : Str) : (last : Nat) → (spans : List (Nat × Nat)) →
    Decidable (SpanChain code last spans)
  | last, [] => decidable_of_iff (last ≤ code.length) (by simp [SpanChain])
  | last, (s, e) :: rest =>
    have := spanChainDec code e rest
    decidable_of_iff (last ≤ s ∧ s ≤ e ∧ SpanChain code e rest) (by simp [SpanChain])

instance (n x : Cap) : Decidable (StrictIn n x) := by unfold StrictIn; infer_instance

instance (a b : Cap) : Decidable (RangeDisjoint a b) := by
  unfold RangeDisjoint; infer_instance

instance (n x : Cap) : Decidable (RangeIn n x) := by unfold RangeIn; infer_instance

instance (caps : List Cap) : Decidable (TreeShaped caps) := by
  unfold TreeShaped; infer_instance

instance (caps : List Cap) : Decidable (StrictTreeShaped caps) := by
  unfold StrictTreeShaped; infer_instance

instance (c : ECat) : Decidable (relevantCat c) := by unfold relevantCat; infer_instance

/-! ## Theorems -/

/-! ### Decimal rendering lemmas -/

theorem natDecGo_eq : ∀ n f acc, n < f → natDecGo f n acc = digitsDec n ++ acc := by
  intro n
  induction n using Nat.strong_induction_on with
  | _ n ih =>
    intro f acc hf
    match f, hf with
    | f + 1, hf =>
      by_cases h10 : n < 10
      · rw [natDecGo, digitsDec]
        simp [h10]
      · rw [natDecGo, digitsDec]
        simp only [h10, if_false, dif_neg]
        rw [ih (n / 10) (Nat.div_lt_self (by omega) (by omega)) f _ (by
          have := Nat.div_lt_self (show 0 < n by omega) (show 1 < 10 by omega)
          omega)]
        simp

theorem natDec_eq (n : Nat) : natDec n = digitsDec n := by
  have h := natDecGo_eq n (n + 1) [] (Nat.lt_succ_self n)
  simpa [natDec] using h

theorem digitsDec_ne_nil (n : Nat) : digitsDec n ≠ [] := by
  rw [digitsDec]
  split <;> simp

theorem natDec_ne_nil (n : Nat) : natDec n ≠ [] := by
  rw [natDec_eq]; exact digitsDec_ne_nil n

theorem decVal_append_digit (a : Str) (c : Char) :
    decVal (a ++ [c]) = 10 * decVal a + (c.toNat - 48) := by
  simp [decVal, List.foldl_append]

theorem toNat_digitChar (m : Nat) (h : m < 10) : (Char.ofNat (48 + m)).toNat = 48 + m := by
  interval_cases m <;> decide

theorem decVal_digits (n : Nat) : decVal (digitsDec n) = n := by
  induction n using Nat.strong_induction_on with
  | _ n ih =>
    by_cases h10 : n < 10
    · rw [digitsDec, dif_pos h10, Nat.mod_eq_of_lt h10]
      have hone : decVal [Char.ofNat (48 + n)] = (Char.ofNat (48 + n)).toNat - 48 := by
        simp [decVal]
      rw [hone, toNat_digitChar n h10]
      omega
    · rw [digitsDec, dif_neg h10, decVal_append_digit,
        ih (n / 10) (Nat.div_lt_self (by omega) (by omega)),
        toNat_digitChar (n % 10) (Nat.mod_lt _ (by omega))]
      omega

theorem natDec_inj {a b : Nat} (h : natDec a = natDec b) : a = b := by
  have ha := decVal_digits a
  have hb := decVal_digits b
  rw [← natDec_eq] at ha hb
  rw [h] at ha
  omega

/-! ### C4 — language dispatch errors -/

/-- C4 counterexample: `get_language` on the unsupported tag `"Go"` fails
with `KeyError("Go")`, not with the dedicated
`ParseLangNotSupportError("Go")` the claim requires of every
language-dispatching operation. -/
theorem c4_counterexample :
    get_language "Go".toList = .error (.keyError "Go".toList) ∧
    get_language "Go".toList ≠ .error (.parseLangNotSupport "Go".toList) := by
  decide

/-- C4 (amended): for a tag outside `{C, C++, Java}`,
`capture_function_definitions` and `function_scope` raise
`ParseLangNotSupportError` carrying the tag, while `get_language`,
`get_parser` and (through the parse path) `remove_comments` raise
`KeyError` carrying the tag; none substitutes a default language or
succeeds. -/
theorem c4_amended (lang : Str) (caps : List Cap) (ancs : List Anc) (code : Str)
    (spans : List (Nat × Nat))
    (h : ¬(lang = "C".toList ∨ lang = "C++".toList ∨ lang = "Java".toList)) :
    capture_function_definitions lang caps = .error (.parseLangNotSupport lang) ∧
    function_scope lang ancs = .error (.parseLangNotSupport lang) ∧
    get_language lang = .error (.keyError lang) ∧
    getParser lang = .error (.keyError lang) ∧
    remove_comments code lang spans = .error (.keyError lang) := by
  have h1 : ¬ lang = "C".toList := fun hc => h (Or.inl hc)
  have h2 : ¬ lang = "C++".toList := fun hc => h (Or.inr (Or.inl hc))
  have h3 : ¬ lang = "Java".toList := fun hc => h (Or.inr (Or.inr hc))
  have hgl : get_language lang = .error (.keyError lang) := by
    rw [get_language, if_neg h1, if_neg h2, if_neg h3]
  have hgp : getParser lang = .error (.keyError lang) := by
    rw [getParser]; exact hgl
  refine ⟨?_, ?_, hgl, hgp, ?_⟩
  · rw [capture_function_definitions, if_neg h]
  · rw [function_scope, if_neg h1, if_neg h2, if_neg h3]
  · rw [remove_comments, if_neg h, hgp]

/-- C4 witness: the amended statement at the concrete tag `"Go"`. -/
theorem c4_witness :
    capture_function_definitions "Go".toList [] = .error (.parseLangNotSupport "Go".toList) ∧
    function_scope "Go".toList [] = .error (.parseLangNotSupport "Go".toList) ∧
    get_language "Go".toList = .error (.keyError "Go".toList) ∧
    getParser "Go".toList = .error (.keyError "Go".toList) ∧
    remove_comments [] "Go".toList [] = .error (.keyError "Go".toList) :=
  c4_amended "Go".toList [] [] [] [] (by decide)

/-! ### C8 — `Func.__eq__` structural equality -/

/-- C8: two function codes compare equal under `Func.__eq__` exactly when
their texts agree after regex comment removal and deletion of all
whitespace; in particular `int foo()\x7breturn 1;\x7d` equals
`"int  foo ( ) \x7b\n  return 1; // x\n\x7d"`. -/
theorem c8_equality :
    (∀ code1 code2 : Str, funcEq code1 code2 = true ↔
      stripWs (remove_comments_regex code1) = stripWs (remove_comments_regex code2)) ∧
    funcEq "int foo()\x7breturn 1;\x7d".toList
      "int  foo ( ) \x7b\n  return 1; // x\n\x7d".toList = true := by
  constructor
  · intro c1 c2
    simp [funcEq]
  · decide

/-! ### C9 — `Func.code` decoding -/

/-- C9 counterexample: on the invalid byte `0xFF`, `Func.code`
(`decode(errors="ignore")`) silently drops the byte and yields the empty
string — it does not substitute a replacement character, as decoding with
`errors="replace"` (shown alongside) would. -/
theorem c9_counterexample :
    func_code [255] = .ok [] ∧
    bytesDecode .replaceErrors [255] = .ok [replChar] := by
  decide

theorem dec8_ignore_ok : ∀ f bs, ∃ s, dec8 f .ignoreErrors bs = .ok s := by
  intro f
  induction f with
  | zero => intro bs; exact ⟨[], rfl⟩
  | succ f ih =>
    intro bs
    match bs with
    | [] => exact ⟨[], rfl⟩
    | b :: rest =>
      simp only [dec8]
      repeat' split
      all_goals
        first
          | exact ih _
          | exact ⟨_, by rw [(ih _).choose_spec]; rfl⟩

/-- C9 (amended): reading `Func.code` never raises — decoding with
`errors="ignore"` always returns a string (with the bytes of invalid
sequences dropped rather than replaced, per the counterexample). -/
theorem c9_amended (bs : List Nat) : ∃ s, func_code bs = .ok s :=
  dec8_ignore_ok (bs.length + 1) bs

/-! ### C10 — numbered called-function abstraction -/

theorem step_ok_of_ne_callee (sf : List Str) (pol : Policy) (st : AbsState) (l : Leaf)
    (hb : branchOf l ≠ .callee) : ∃ p, step sf pol st l = .ok p := by
  cases hbr : branchOf l <;> simp only [step, hbr] <;>
    first
      | exact absurd hbr hb
      | (repeat' split) <;> exact ⟨_, rfl⟩

theorem step_callee_err (sf : List Str) (pol : Policy) (st : AbsState) (l : Leaf)
    (hb : branchOf l = .callee)
    (hnum : pol.abstract_func_call &&& ABST_WITH_NUM ≠ 0) :
    step sf pol st l = .error .notImplementedError := by
  have h0 : ¬ pol.abstract_func_call = 0 := by
    intro hz
    rw [hz] at hnum
    exact hnum rfl
  simp only [step, hb]
  rw [if_neg h0, if_pos hnum]

theorem runAbs_callee_err (sf : List Str) (pol : Policy)
    (hnum : pol.abstract_func_call &&& ABST_WITH_NUM ≠ 0) :
    ∀ (leaves : List Leaf) (st : AbsState), (∃ l ∈ leaves, branchOf l = .callee) →
      runAbs sf pol st leaves = .error .notImplementedError := by
  intro leaves
  induction leaves with
  | nil => intro st h; obtain ⟨l, hl, _⟩ := h; cases hl
  | cons l ls ih =>
    intro st h
    by_cases hc : branchOf l = .callee
    · rw [runAbs, step_callee_err sf pol st l hc hnum]
    · obtain ⟨⟨st1, ems⟩, hstep⟩ := step_ok_of_ne_callee sf pol st l hc
      obtain ⟨w, hw, hwc⟩ := h
      have hwls : w ∈ ls := by
        cases hw with
        | head => exact absurd hwc hc
        | tail _ hmem => exact hmem
      simp only [runAbs, hstep, ih st1 ⟨w, hwls, hwc⟩]

theorem runAbs_no_callee_ok (sf : List Str) (pol : Policy) :
    ∀ (leaves : List Leaf) (st : AbsState), (∀ l ∈ leaves, branchOf l ≠ .callee) →
      ∃ ems, runAbs sf pol st leaves = .ok ems := by
  intro leaves
  induction leaves with
  | nil => intro st _; exact ⟨[], rfl⟩
  | cons l ls ih =>
    intro st h
    obtain ⟨⟨st1, ems⟩, hstep⟩ :=
      step_ok_of_ne_callee sf pol st l (h l (List.mem_cons_self l ls))
    obtain ⟨ems2, hrun⟩ := ih st1 (fun x hx => h x (List.mem_cons_of_mem l hx))
    refine ⟨ems ++ ems2, ?_⟩
    simp only [runAbs, hstep, hrun]

/-- C10 counterexample: with `abstract_func_call = ABST_WITH_NUM`,
abstracting a function containing no call expression
(`int f() \x7b return 1; \x7d`) does not raise — it returns a full token
sequence, so the configuration error is not raised for every input
function as claimed. -/
theorem c10_counterexample :
    ({ polDefault with abstract_func_call := ABST_WITH_NUM } : Policy).abstract_func_call
        &&& ABST_WITH_NUM ≠ 0 ∧
    abstract_func_clike [] { polDefault with abstract_func_call := ABST_WITH_NUM }
        (treeLeaves ceTree10) =
      .ok (["int", "FNAME", "(", ")", "\x7b", "return", "1", ";", "\x7d"].map
        String.toList) := by
  constructor
  · decide
  · decide

/-- C10 (amended): with the `ABST_WITH_NUM` bit set on
`abstract_func_call`, the run raises `NotImplementedError` exactly when
the traversal reaches a call-expression callee identifier: any function
containing one fails, and a function containing none returns a token
sequence normally. -/
theorem c10_amended (sf : List Str) (pol : Policy) (leaves : List Leaf)
    (hnum : pol.abstract_func_call &&& ABST_WITH_NUM ≠ 0) :
    ((∃ l ∈ leaves, branchOf l = .callee) →
      abstract_func_clike sf pol leaves = .error .notImplementedError)
    ∧ ((∀ l ∈ leaves, branchOf l ≠ .callee) →
      ∃ toks, abstract_func_clike sf pol leaves = .ok toks) := by
  constructor
  · intro h
    rw [abstract_func_clike, runAbs_callee_err sf pol hnum leaves st0 h]
  · intro h
    obtain ⟨ems, hrun⟩ := runAbs_no_callee_ok sf pol leaves st0 h
    refine ⟨ems.map Em.tok, ?_⟩
    rw [abstract_func_clike, hrun]

/-- C10 witness: the amended statement applied to the concrete
call-containing tree `int f() \x7b g(); \x7d` and the concrete call-free
tree `int f() \x7b return 1; \x7d`. -/
theorem c10_witness :
    abstract_func_clike [] { polDefault with abstract_func_call := ABST_WITH_NUM }
        (treeLeaves callTree) = .error .notImplementedError ∧
    ∃ toks, abstract_func_clike []
        { polDefault with abstract_func_call := ABST_WITH_NUM }
        (treeLeaves ceTree10) = .ok toks :=
  ⟨(c10_amended [] _ (treeLeaves callTree) (by decide)).1 (by decide),
   (c10_amended [] _ (treeLeaves ceTree10) (by decide)).2 (by decide)⟩

/-! ### C5 — per-category selector independence -/

/-- C5 counterexample: with the field selector fixed at `ABST_AS_TYPE`,
changing only `abstract_lvar` flips the field output between the numbered
`FIELD0` and the generic `FIELD`: the numbered-vs-generic choice for the
field category is governed by the local-variable selector, not by
`abstract_field`. -/
theorem c5_counterexample :
    ({ polDefault with abstract_field := ABST_AS_TYPE } : Policy).abstract_field =
      ({ polDefault with abstract_field := ABST_AS_TYPE, abstract_lvar := ABST_AS_TYPE } : Policy).abstract_field ∧
    abstract_func_clike [] { polDefault with abstract_field := ABST_AS_TYPE }
        [fieldLeaf] = .ok ["FIELD0".toList] ∧
    abstract_func_clike [] { polDefault with abstract_field := ABST_AS_TYPE, abstract_lvar := ABST_AS_TYPE }
        [fieldLeaf] = .ok ["FIELD".toList] := by
  refine ⟨rfl, ?_, ?_⟩ <;> decide

/-- C5 (amended): the behaviour of the field, label and goto-label
branches is determined by the pair (own selector, `abstract_lvar`) — the
numbered-vs-generic choice follows `abstract_lvar` — while the type branch
is determined by `abstract_type` alone. -/
theorem c5_amended (sf : List Str) (p1 p2 : Policy) (st : AbsState) (l : Leaf) :
    (branchOf l = .fieldId → p1.abstract_field = p2.abstract_field →
      p1.abstract_lvar = p2.abstract_lvar → step sf p1 st l = step sf p2 st l)
    ∧ (branchOf l = .labelDef ∨ branchOf l = .gotoLabel →
      p1.abstract_label = p2.abstract_label →
      p1.abstract_lvar = p2.abstract_lvar → step sf p1 st l = step sf p2 st l)
    ∧ (branchOf l = .tyLeaf → p1.abstract_type = p2.abstract_type →
      step sf p1 st l = step sf p2 st l) := by
  refine ⟨?_, ?_, ?_⟩
  · intro hb hf hl
    simp only [step, hb, hf, hl]
  · rintro (hb | hb) hlab hl <;> simp only [step, hb, hlab, hl]
  · intro hb ht
    simp only [step, hb, ht]

/-- C5 witness: the amended statement at a concrete field leaf and two
concrete policies that differ only in the global-symbol selector. -/
theorem c5_witness :
    step [] polDefault st0 fieldLeaf =
      step [] { polDefault with abstract_gsym := ABST_AS_TYPE } st0 fieldLeaf :=
  (c5_amended [] polDefault { polDefault with abstract_gsym := ABST_AS_TYPE }
    st0 fieldLeaf).1 (by decide) rfl rfl

/-! ### C1 — function-location span pruning -/

/-- C1 counterexample: two function-definition captures of one tree whose
ranges nest while sharing the start byte (`[0,20)` and `[0,9)`, a
configuration the tree invariant allows).  The nested-capture filter only
removes ranges that are strictly inside on both ends, so both captures
survive, and the returned spans overlap — contradicting the claimed
mutual non-overlap (the second returned range even lies inside the
first). -/
theorem c1_counterexample :
    TreeShaped capsCE ∧
    capture_function_definitions "C".toList capsCE = .ok capsCE ∧
    ¬ (capsCE.Pairwise RangeDisjoint) := by
  refine ⟨by decide, by decide, by decide⟩

/-- C1 (amended): the returned captures never contain a node strictly
nested (on both ends) inside another returned node; and whenever the raw
captures nest only strictly (or are disjoint), as is the case for
function definitions whose bodies properly contain any nested definition,
the returned byte ranges are mutually non-overlapping. -/
theorem c1_amended (lang : Str) (caps out : List Cap)
    (hcap : capture_function_definitions lang caps = .ok out) :
    (∀ n ∈ out, ∀ x ∈ out, ¬ StrictIn n x)
    ∧ (StrictTreeShaped caps → out.Pairwise RangeDisjoint) := by
  rw [capture_function_definitions] at hcap
  split at hcap
  case isFalse => cases hcap
  case isTrue hsupp =>
    have hout : out = dropKeyword (dropNested caps) := by
      cases hcap; rfl
    subst hout
    have hnostrict : ∀ n ∈ dropKeyword (dropNested caps),
        ∀ x ∈ dropKeyword (dropNested caps), ¬ StrictIn n x := by
      intro n hn x hx hstrict
      have hn1 : n ∈ dropNested caps := (List.mem_filter.mp hn).1
      have hx1 : x ∈ dropNested caps := (List.mem_filter.mp hx).1
      have hxc : x ∈ caps := (List.mem_filter.mp hx1).1
      have hfilt := (List.mem_filter.mp hn1).2
      rw [Bool.not_eq_true', List.any_eq_false] at hfilt
      have := hfilt x hxc
      simp only [Bool.and_eq_true, decide_eq_true_eq, not_and] at this
      exact this hstrict.1 hstrict.2
    refine ⟨hnostrict, ?_⟩
    intro hst
    have hsub : (dropKeyword (dropNested caps)).Sublist caps :=
      (List.filter_sublist _).trans (List.filter_sublist _)
    have hpw : (dropKeyword (dropNested caps)).Pairwise
        (fun a b => RangeDisjoint a b ∨ StrictIn a b ∨ StrictIn b a) :=
      hst.sublist hsub
    refine hpw.imp_of_mem ?_
    intro a b ha hb hab
    rcases hab with hd | hs | hs
    · exact hd
    · exact absurd hs (hnostrict a ha b hb)
    · exact absurd hs (hnostrict b hb a ha)

/-- C1 witness: the amended statement applied to a concrete strictly
nested capture list (ranges `[0,20)` and `[4,9)`): the nested capture is
pruned and the output is pairwise non-overlapping. -/
theorem c1_witness :
    (∀ n ∈ [Cap.mk 0 20 "int f()\x7b\x7d".toList],
      ∀ x ∈ [Cap.mk 0 20 "int f()\x7b\x7d".toList], ¬ StrictIn n x)
    ∧ ([Cap.mk 0 20 "int f()\x7b\x7d".toList].Pairwise RangeDisjoint) := by
  have h := c1_amended "C".toList
    [Cap.mk 0 20 "int f()\x7b\x7d".toList, Cap.mk 4 9 "int g()\x7b\x7d".toList]
    [Cap.mk 0 20 "int f()\x7b\x7d".toList] (by decide)
  exact ⟨h.1, h.2 (by decide)⟩

/-! ### C6 — tree-accurate stripping preserves lines -/

theorem countNl_append (a b : Str) : countNl (a ++ b) = countNl a + countNl b :=
  List.count_append _ _ _

theorem slice_split (code : Str) (a b : Nat) (hab : a ≤ b) :
    code.drop a = slice code a b ++ code.drop b := by
  unfold slice
  conv_lhs => rw [← List.take_append_drop (b - a) (code.drop a)]
  rw [List.drop_drop, show a + (b - a) = b by omega]

theorem take_split (code : Str) (a b : Nat) (hab : a ≤ b) :
    code.take b = code.take a ++ slice code a b := by
  unfold slice
  conv_lhs => rw [show b = a + (b - a) by omega]
  exact List.take_add code a (b - a)

theorem countNl_replicate (n : Nat) : countNl (List.replicate n '\n') = n := by
  simp [countNl, List.count_replicate_self]

theorem rcaGo_countNl (code : Str) : ∀ (spans : List (Nat × Nat)) (last : Nat),
    SpanChain code last spans →
    countNl (rcaGo code last spans) = countNl (code.drop last) := by
  intro spans
  induction spans with
  | nil => intro last _; rfl
  | cons se rest ih =>
    obtain ⟨s, e⟩ := se
    intro last hch
    obtain ⟨h1, h2, h3⟩ := hch
    simp only [rcaGo]
    rw [countNl_append, countNl_append, ih e h3, countNl_replicate,
      slice_split code last s h1, countNl_append, slice_split code s e h2,
      countNl_append]
    omega

theorem rcaGo_decomp (code : Str) : ∀ (spans : List (Nat × Nat)) (last i : Nat),
    SpanChain code last spans → i ≤ spans.length →
    ∃ pre post, rcaGo code last spans =
        pre ++ slice code (endAtL last spans i) (startAtL code spans i) ++ post
      ∧ countNl (code.take last) + countNl pre = countNl (code.take (endAtL last spans i)) := by
  intro spans
  induction spans with
  | nil =>
    intro last i hch hi
    have hi0 : i = 0 := by simpa using hi
    subst hi0
    refine ⟨[], [], ?_, by simp [countNl, endAtL]⟩
    simp only [rcaGo, endAtL, startAtL, slice, List.nil_append, List.append_nil]
    rw [List.take_of_length_le (by simp)]
  | cons se rest ih =>
    obtain ⟨s, e⟩ := se
    intro last i hch hi
    obtain ⟨h1, h2, h3⟩ := hch
    match i with
    | 0 =>
      refine ⟨[], List.replicate (countNl (slice code s e)) '\n' ++ rcaGo code e rest,
        ?_, by simp [countNl, endAtL]⟩
      simp only [rcaGo, endAtL, startAtL, List.nil_append, List.append_assoc]
    | i + 1 =>
      obtain ⟨pre1, post1, heq, hcnt⟩ := ih e i h3 (by simpa using hi)
      refine ⟨slice code last s ++ List.replicate (countNl (slice code s e)) '\n' ++ pre1,
        post1, ?_, ?_⟩
      · simp only [rcaGo, endAtL, startAtL, heq, List.append_assoc]
      · simp only [endAtL]
        rw [countNl_append, countNl_append, countNl_replicate]
        have htake : countNl (code.take e) =
            countNl (code.take last) + countNl (slice code last s) + countNl (slice code s e) := by
          rw [take_split code s e h2, take_split code last s h1, countNl_append,
            countNl_append]
        omega

/-- C6: under the span-chain shape the preorder walk guarantees, the
tree-accurate stripper preserves the total newline count, and every
non-comment chunk (the text between two consecutive comment spans) is
reproduced verbatim in the output preceded by exactly as many newlines as
precede it in the input — i.e. at its original line number. -/
theorem c6_line_preservation (code : Str) (spans : List (Nat × Nat))
    (hch : SpanChain code 0 spans) :
    countNl (remove_comments_ast code spans) = countNl code
    ∧ ∀ i, i ≤ spans.length → ∃ pre post,
        remove_comments_ast code spans =
          pre ++ slice code (endAtL 0 spans i) (startAtL code spans i) ++ post
        ∧ countNl pre = countNl (code.take (endAtL 0 spans i)) := by
  constructor
  · have h := rcaGo_countNl code spans 0 hch
    simpa [remove_comments_ast] using h
  · intro i hi
    obtain ⟨pre, post, heq, hcnt⟩ := rcaGo_decomp code spans 0 i hch hi
    exact ⟨pre, post, heq, by simpa [countNl] using hcnt⟩

/-- C6 witness: the concrete input `ab/*x(newline)y*/cd` with its comment
span `[2,9)`: the newline count is preserved. -/
theorem c6_witness :
    SpanChain "ab/*x\ny*/cd".toList 0 [(2, 9)] ∧
    countNl (remove_comments_ast "ab/*x\ny*/cd".toList [(2, 9)]) =
      countNl "ab/*x\ny*/cd".toList :=
  ⟨by decide, (c6_line_preservation "ab/*x\ny*/cd".toList [(2, 9)] (by decide)).1⟩

/-! ### C3 — keep-everything round trip -/

theorem step_pol0 (sf : List Str) (st : AbsState) (l : Leaf) (hmap : st.lvar_map = []) :
    step sf pol0 st l =
      .ok (st, if branchOf l = .dropKw ∨ branchOf l = .gotoLabel then []
               else [⟨.other, l.text, l.text⟩]) := by
  cases hb : branchOf l <;> simp [step, hb, pol0, hmap, mfind]

theorem runAbs_pol0 (sf : List Str) :
    ∀ (leaves : List Leaf) (st : AbsState), st.lvar_map = [] →
    runAbs sf pol0 st leaves =
      .ok ((leaves.filter (fun l =>
          !(decide (branchOf l = .dropKw) || decide (branchOf l = .gotoLabel)))).map
        (fun l => ⟨.other, l.text, l.text⟩)) := by
  intro leaves
  induction leaves with
  | nil => intro st _; rfl
  | cons l ls ih =>
    intro st hmap
    rw [runAbs, step_pol0 sf st l hmap]
    by_cases hdrop : branchOf l = .dropKw ∨ branchOf l = .gotoLabel
    · simp only [if_pos hdrop, ih st hmap, List.filter_cons]
      rcases hdrop with h | h <;> simp [h]
    · simp only [if_neg hdrop, ih st hmap, List.filter_cons]
      push_neg at hdrop
      simp [hdrop.1, hdrop.2]

/-- C3 (amended): with every selector falsy (keep everything), the token
stream of `abstract_func_clike` is exactly the leaf texts of the function
minus the comment leaves, minus the storage-class/qualifier keyword
leaves, and minus the goto-target labels — i.e. its concatenation equals
the comment-stripped source with `static/const/volatile/inline/extern/
register/typedef` keywords and goto-target labels also removed (modulo
whitespace, which the token stream does not carry). -/
theorem c3_amended (sf : List Str) (leaves : List Leaf) :
    abstract_func_clike sf pol0 leaves =
      .ok ((leaves.filter (fun l =>
        !(decide (branchOf l = .dropKw) || decide (branchOf l = .gotoLabel)))).map
        Leaf.text) := by
  rw [abstract_func_clike, runAbs_pol0 sf leaves st0 rfl]
  simp [List.map_map, Function.comp]

/-- C3 counterexample: on
`int f() \x7b static int x; goto err; err: x; \x7d` the keep-everything
run drops the `static` keyword and the goto target `err`, so the
concatenated token stream differs from the comment-stripped source
text. -/
theorem c3_counterexample :
    abstract_func_clike [] pol0 (treeLeaves ceTree3) =
      .ok (["int", "f", "(", ")", "\x7b", "int", "x", ";", "goto", ";",
            "err", ":", "x", ";", "\x7d"].map String.toList) ∧
    (["int", "f", "(", ")", "\x7b", "int", "x", ";", "goto", ";",
      "err", ":", "x", ";", "\x7d"].map String.toList).flatten ≠
      (((treeLeaves ceTree3).filter
          (fun l => !(hasSubstr "comment".toList l.ty))).map Leaf.text).flatten := by
  refine ⟨by decide, by decide⟩

/-! ### C2 — numbered local-variable placeholder stability -/

theorem lvarNumTok_inj {i j : Nat} (h : lvarNumTok i = lvarNumTok j) : i = j := by
  unfold lvarNumTok at h
  exact natDec_inj (List.append_cancel_left h)

theorem fparamNum_ne_lvarNumTok (j k : Nat) :
    "FPARAM".toList ++ natDec j ≠ lvarNumTok k := by
  intro h
  rw [lvarNumTok, show "FPARAM".toList = 'F' :: 'P' :: 'A' :: 'R' :: 'A' :: 'M' :: [] from rfl,
    show "LVAR".toList = 'L' :: 'V' :: 'A' :: 'R' :: [] from rfl] at h
  simp [List.cons_append] at h

theorem fparamConst_ne_lvarNumTok (k : Nat) : "FPARAM".toList ≠ lvarNumTok k := by
  intro h
  rw [lvarNumTok, show "FPARAM".toList = 'F' :: 'P' :: 'A' :: 'R' :: 'A' :: 'M' :: [] from rfl,
    show "LVAR".toList = 'L' :: 'V' :: 'A' :: 'R' :: [] from rfl] at h
  simp [List.cons_append] at h

theorem lvarConst_ne_lvarNumTok (k : Nat) : "LVAR".toList ≠ lvarNumTok k := by
  intro h
  rw [lvarNumTok] at h
  have h2 : ("LVAR".toList : Str) ++ [] = "LVAR".toList ++ natDec k := by simpa using h
  exact natDec_ne_nil k (List.append_cancel_left h2).symm

theorem mfind_cons_self (m : List (Str × Str)) (t v : Str) :
    mfind ((t, v) :: m) t = some v := by simp [mfind]

theorem mfind_cons_ne (m : List (Str × Str)) (k t v : Str) (h : k ≠ t) :
    mfind ((k, v) :: m) t = mfind m t := by simp [mfind, h]

/-- Exhaustive description of how one `step` affects `lvar_map`, the
`LVAR` counter and the relevant emissions. -/
theorem step_shape (sf : List Str) (pol : Policy) (st : AbsState) (l : Leaf)
    (st1 : AbsState) (ems : List Em)
    (hok : step sf pol st l = .ok (st1, ems)) :
    (st1.lvar_map = st.lvar_map ∧ st1.cLVAR = st.cLVAR
      ∧ ∀ em ∈ ems, em.cat = ECat.other)
    ∨ (branchOf l = Br.fparam
        ∧ st1.lvar_map = (l.text, "FPARAM".toList ++ natDec st.cFPARAM) :: st.lvar_map
        ∧ st1.cLVAR = st.cLVAR
        ∧ ems = [⟨.fparamAbs, l.text, "FPARAM".toList ++ natDec st.cFPARAM⟩])
    ∨ (branchOf l = Br.fparam
        ∧ st1.lvar_map = (l.text, "FPARAM".toList) :: st.lvar_map
        ∧ st1.cLVAR = st.cLVAR
        ∧ ems = [⟨.fparamAbs, l.text, "FPARAM".toList⟩])
    ∨ (branchOf l = Br.lvar
        ∧ st1.lvar_map = (l.text, lvarNumTok st.cLVAR) :: st.lvar_map
        ∧ st1.cLVAR = st.cLVAR + 1
        ∧ ems = [⟨.lvarAbs, l.text, lvarNumTok st.cLVAR⟩])
    ∨ (branchOf l = Br.lvar
        ∧ st1.lvar_map = (l.text, "LVAR".toList) :: st.lvar_map
        ∧ st1.cLVAR = st.cLVAR
        ∧ ems = [⟨.lvarAbs, l.text, "LVAR".toList⟩])
    ∨ (st1 = st ∧ ∃ tok, mfind st.lvar_map l.text = some tok
        ∧ ems = [⟨.mapUse, l.text, tok⟩]) := by
  cases hb : branchOf l
  case fparam =>
    simp only [step, hb] at hok
    repeat' split at hok
    all_goals cases hok
    · exact Or.inl ⟨rfl, rfl, by simp⟩
    · exact Or.inr (Or.inl ⟨rfl, rfl, rfl, by simp⟩)
    · exact Or.inr (Or.inr (Or.inl ⟨rfl, rfl, rfl, by simp⟩))
  case lvar =>
    simp only [step, hb] at hok
    repeat' split at hok
    all_goals cases hok
    · exact Or.inl ⟨rfl, rfl, by simp⟩
    · exact Or.inr (Or.inr (Or.inr (Or.inl ⟨rfl, rfl, rfl, by simp [lvarNumTok]⟩)))
    · exact Or.inr (Or.inr (Or.inr (Or.inr (Or.inl ⟨rfl, rfl, rfl, by simp⟩))))
  case ident =>
    simp only [step, hb] at hok
    repeat' split at hok
    all_goals cases hok
    case _ tok htok =>
      exact Or.inr (Or.inr (Or.inr (Or.inr (Or.inr ⟨rfl, tok, htok, rfl⟩))))
    all_goals exact Or.inl ⟨rfl, rfl, by simp⟩
  case fname =>
    simp only [step, hb] at hok
    repeat' split at hok
    all_goals cases hok
    all_goals exact Or.inl ⟨rfl, rfl, by simp⟩
  case fieldId =>
    simp only [step, hb] at hok
    repeat' split at hok
    all_goals cases hok
    all_goals exact Or.inl ⟨rfl, rfl, by simp⟩
  case labelDef =>
    simp only [step, hb] at hok
    repeat' split at hok
    all_goals cases hok
    all_goals exact Or.inl ⟨rfl, rfl, by simp⟩
  case gotoLabel =>
    simp only [step, hb] at hok
    repeat' split at hok
    all_goals cases hok
    all_goals exact Or.inl ⟨rfl, rfl, by simp⟩
  case tyLeaf =>
    simp only [step, hb] at hok
    repeat' split at hok
    all_goals cases hok
    all_goals exact Or.inl ⟨rfl, rfl, by simp⟩
  case literal =>
    simp only [step, hb] at hok
    repeat' split at hok
    all_goals cases hok
    all_goals exact Or.inl ⟨rfl, rfl, by simp⟩
  case callee =>
    simp only [step, hb] at hok
    repeat' split at hok
    all_goals cases hok
    all_goals exact Or.inl ⟨rfl, rfl, by simp⟩
  case dropKw =>
    simp only [step, hb] at hok
    cases hok
    exact Or.inl ⟨rfl, rfl, by simp⟩
  case passthrough =>
    simp only [step, hb] at hok
    cases hok
    exact Or.inl ⟨rfl, rfl, by simp⟩

theorem not_relevant_other : ¬ relevantCat ECat.other := by simp [relevantCat]

/-- Pushing a non-`LVAR{k}` binding (parameter tokens, generic tokens)
preserves the collision invariant. -/
theorem inv1_push_nonlvar (st st1 : AbsState) (ems : List Em)
    (key tk : Str) (c : ECat)
    (hm : st1.lvar_map = (key, tk) :: st.lvar_map)
    (hc : st1.cLVAR = st.cLVAR)
    (htk : ∀ k, tk ≠ lvarNumTok k)
    (hinv : Inv1 st ems) : Inv1 st1 (ems ++ [⟨c, key, tk⟩]) := by
  obtain ⟨hmapB, hemB, hfun⟩ := hinv
  refine ⟨?_, ?_, ?_⟩
  · intro t tok hfind k hkk
    rw [hc]
    rw [hm] at hfind
    by_cases hkey : key = t
    · rw [← hkey, mfind_cons_self] at hfind
      injection hfind with he
      rw [← he] at hkk
      exact absurd hkk (htk k)
    · rw [mfind_cons_ne _ _ _ _ hkey] at hfind
      exact hmapB t tok hfind k hkk
  · intro em hem hrel k hkk
    rw [hc]
    rcases List.mem_append.mp hem with h | h
    · exact hemB em h hrel k hkk
    · simp only [List.mem_singleton] at h
      subst h
      exact absurd hkk (htk k)
  · intro k t1 t2 h1 h2
    have conv : ∀ t, RelTok st1.lvar_map (ems ++ [⟨c, key, tk⟩]) k t →
        RelTok st.lvar_map ems k t := by
      intro t h
      rcases h with ⟨em, hem, hrel, horig, hemtk⟩ | hmp
      · rcases List.mem_append.mp hem with hh | hh
        · exact Or.inl ⟨em, hh, hrel, horig, hemtk⟩
        · simp only [List.mem_singleton] at hh
          subst hh
          exact absurd hemtk (htk k)
      · rw [hm] at hmp
        by_cases hkey : key = t
        · rw [← hkey, mfind_cons_self] at hmp
          injection hmp with he
          exact absurd he (htk k)
        · rw [mfind_cons_ne _ _ _ _ hkey] at hmp
          exact Or.inr hmp
    exact hfun k t1 t2 (conv t1 h1) (conv t2 h2)

/-- Allocating a fresh numbered `LVAR` binding preserves the collision
invariant: the new number is at the counter, strictly above every number
in use. -/
theorem inv1_push_lvar (st st1 : AbsState) (ems : List Em) (key : Str)
    (hm : st1.lvar_map = (key, lvarNumTok st.cLVAR) :: st.lvar_map)
    (hc : st1.cLVAR = st.cLVAR + 1)
    (hinv : Inv1 st ems) :
    Inv1 st1 (ems ++ [⟨.lvarAbs, key, lvarNumTok st.cLVAR⟩]) := by
  obtain ⟨hmapB, hemB, hfun⟩ := hinv
  refine ⟨?_, ?_, ?_⟩
  · intro t tok hfind k hkk
    rw [hc]
    rw [hm] at hfind
    by_cases hkey : key = t
    · rw [← hkey, mfind_cons_self] at hfind
      injection hfind with he
      rw [← he] at hkk
      have := lvarNumTok_inj hkk
      omega
    · rw [mfind_cons_ne _ _ _ _ hkey] at hfind
      have := hmapB t tok hfind k hkk
      omega
  · intro em hem hrel k hkk
    rw [hc]
    rcases List.mem_append.mp hem with h | h
    · have := hemB em h hrel k hkk
      omega
    · simp only [List.mem_singleton] at h
      subst h
      have := lvarNumTok_inj hkk
      omega
  · intro k t1 t2 h1 h2
    by_cases hk : k = st.cLVAR
    · have forced : ∀ t,
          RelTok st1.lvar_map (ems ++ [⟨.lvarAbs, key, lvarNumTok st.cLVAR⟩]) k t →
          t = key := by
        intro t h
        rcases h with ⟨em, hem, hrel, horig, hemtk⟩ | hmp
        · rcases List.mem_append.mp hem with hh | hh
          · have := hemB em hh hrel k hemtk
            exact absurd this (by omega)
          · simp only [List.mem_singleton] at hh
            subst hh
            exact horig.symm
        · rw [hm] at hmp
          by_cases hkey : key = t
          · exact hkey.symm
          · rw [mfind_cons_ne _ _ _ _ hkey] at hmp
            have hlt := hmapB t _ hmp k (by rw [hk])
            exact absurd hlt (by omega)
      rw [forced t1 h1, forced t2 h2]
    · have conv : ∀ t,
          RelTok st1.lvar_map (ems ++ [⟨.lvarAbs, key, lvarNumTok st.cLVAR⟩]) k t →
          RelTok st.lvar_map ems k t := by
        intro t h
        rcases h with ⟨em, hem, hrel, horig, hemtk⟩ | hmp
        · rcases List.mem_append.mp hem with hh | hh
          · exact Or.inl ⟨em, hh, hrel, horig, hemtk⟩
          · simp only [List.mem_singleton] at hh
            subst hh
            exact absurd (lvarNumTok_inj hemtk).symm hk
        · rw [hm] at hmp
          by_cases hkey : key = t
          · rw [← hkey, mfind_cons_self] at hmp
            injection hmp with he
            exact absurd (lvarNumTok_inj he).symm hk
          · rw [mfind_cons_ne _ _ _ _ hkey] at hmp
            exact Or.inr hmp
      exact hfun k t1 t2 (conv t1 h1) (conv t2 h2)

/-- One loop step preserves the collision invariant. -/
theorem inv1_step (sf : List Str) (pol : Policy) (st : AbsState) (l : Leaf)
    (st1 : AbsState) (out ems : List Em)
    (hok : step sf pol st l = .ok (st1, out))
    (hinv : Inv1 st ems) : Inv1 st1 (ems ++ out) := by
  rcases step_shape sf pol st l st1 out hok with
    ⟨hm, hc, hcat⟩ | ⟨_, hm, hc, hout⟩ | ⟨_, hm, hc, hout⟩ | ⟨_, hm, hc, hout⟩ |
    ⟨_, hm, hc, hout⟩ | ⟨hst, tok, htok, hout⟩
  · obtain ⟨hmapB, hemB, hfun⟩ := hinv
    refine ⟨?_, ?_, ?_⟩
    · rw [hm, hc]; exact hmapB
    · intro em hem hrel k htkk
      rw [hc]
      rcases List.mem_append.mp hem with h | h
      · exact hemB em h hrel k htkk
      · rw [hcat em h] at hrel
        exact absurd hrel not_relevant_other
    · intro k t1 t2 h1 h2
      have conv : ∀ t, RelTok st1.lvar_map (ems ++ out) k t →
          RelTok st.lvar_map ems k t := by
        intro t h
        rcases h with ⟨em, hem, hrel, horig, htkk⟩ | hmp
        · rcases List.mem_append.mp hem with hh | hh
          · exact Or.inl ⟨em, hh, hrel, horig, htkk⟩
          · rw [hcat em hh] at hrel
            exact absurd hrel not_relevant_other
        · rw [hm] at hmp
          exact Or.inr hmp
      exact hfun k t1 t2 (conv t1 h1) (conv t2 h2)
  · rw [hout]
    exact inv1_push_nonlvar st st1 ems l.text _ _ hm hc
      (fparamNum_ne_lvarNumTok st.cFPARAM) hinv
  · rw [hout]
    exact inv1_push_nonlvar st st1 ems l.text _ _ hm hc fparamConst_ne_lvarNumTok hinv
  · rw [hout]
    exact inv1_push_lvar st st1 ems l.text hm hc hinv
  · rw [hout]
    exact inv1_push_nonlvar st st1 ems l.text _ _ hm hc lvarConst_ne_lvarNumTok hinv
  · rw [hout, hst]
    obtain ⟨hmapB, hemB, hfun⟩ := hinv
    refine ⟨hmapB, ?_, ?_⟩
    · intro em hem hrel k hkk
      rcases List.mem_append.mp hem with h | h
      · exact hemB em h hrel k hkk
      · simp only [List.mem_singleton] at h
        subst h
        exact hmapB l.text tok htok k hkk
    · intro k t1 t2 h1 h2
      have conv : ∀ t, RelTok st.lvar_map (ems ++ [⟨.mapUse, l.text, tok⟩]) k t →
          RelTok st.lvar_map ems k t := by
        intro t h
        rcases h with ⟨em, hem, hrel, horig, hemtk⟩ | hmp
        · rcases List.mem_append.mp hem with hh | hh
          · exact Or.inl ⟨em, hh, hrel, horig, hemtk⟩
          · simp only [List.mem_singleton] at hh
            subst hh
            refine Or.inr ?_
            dsimp only at horig hemtk
            rw [← horig, htok, hemtk]
        · exact Or.inr hmp
      exact hfun k t1 t2 (conv t1 h1) (conv t2 h2)

theorem inv1_empty : Inv1 st0 [] := by
  refine ⟨?_, ?_, ?_⟩
  · intro t tok hfind k hkk
    simp [st0, mfind] at hfind
  · intro em hem
    simp at hem
  · intro k t1 t2 h1 h2
    rcases h1 with ⟨em, hem, _⟩ | hmp
    · simp at hem
    · simp [st0, mfind] at hmp

/-- Collision freedom propagates through a whole run. -/
theorem runAbs_collision (sf : List Str) (pol : Policy) :
    ∀ (leaves : List Leaf) (st : AbsState) (ems ems2 : List Em),
    Inv1 st ems → runAbs sf pol st leaves = .ok ems2 →
    ∀ em1 ∈ ems ++ ems2, ∀ em2 ∈ ems ++ ems2,
      relevantCat em1.cat → relevantCat em2.cat →
      IsLvarNumTok em1.tok → em1.tok = em2.tok → em1.orig = em2.orig := by
  intro leaves
  induction leaves with
  | nil =>
    intro st ems ems2 hinv hrun
    cases hrun
    intro em1 h1 em2 h2 hrel1 hrel2 hnum heq
    simp only [List.append_nil] at h1 h2
    obtain ⟨k, hk⟩ := hnum
    exact hinv.2.2 k em1.orig em2.orig
      (Or.inl ⟨em1, h1, hrel1, rfl, hk⟩)
      (Or.inl ⟨em2, h2, hrel2, rfl, by rw [← heq, hk]⟩)
  | cons l ls ih =>
    intro st ems ems2 hinv hrun
    rw [runAbs] at hrun
    cases hstep : step sf pol st l with
    | error e => rw [hstep] at hrun; cases hrun
    | ok p =>
      obtain ⟨st1, out⟩ := p
      rw [hstep] at hrun
      dsimp only at hrun
      cases hrest : runAbs sf pol st1 ls with
      | error e => rw [hrest] at hrun; cases hrun
      | ok rest2 =>
        rw [hrest] at hrun
        dsimp only at hrun
        cases hrun
        have h := ih st1 (ems ++ out) rest2
          (inv1_step sf pol st l st1 out ems hstep hinv) hrest
        intro em1 h1 em2 h2
        apply h em1 _ em2
        · rw [List.append_assoc]
          exact h2
        · rw [List.append_assoc]
          exact h1

/-- If the remaining leaves never rebind `t` and the map has no entry for
`t`, no later relevant emission originates from `t`. -/
theorem runAbs_nodecl_none (sf : List Str) (pol : Policy) (t : Str) :
    ∀ (leaves : List Leaf) (st : AbsState) (ems2 : List Em),
    mfind st.lvar_map t = none → (∀ l ∈ leaves, declSite t l = false) →
    runAbs sf pol st leaves = .ok ems2 →
    ∀ em ∈ ems2, relevantCat em.cat → em.orig ≠ t := by
  intro leaves
  induction leaves with
  | nil =>
    intro st ems2 _ _ hrun
    cases hrun
    intro em hem
    simp at hem
  | cons l ls ih =>
    intro st ems2 hnone hdecl hrun
    rw [runAbs] at hrun
    cases hstep : step sf pol st l with
    | error e => rw [hstep] at hrun; cases hrun
    | ok p =>
      obtain ⟨st1, out⟩ := p
      rw [hstep] at hrun
      dsimp only at hrun
      cases hrest : runAbs sf pol st1 ls with
      | error e => rw [hrest] at hrun; cases hrun
      | ok rest2 =>
        rw [hrest] at hrun
        dsimp only at hrun
        cases hrun
        have hdl : declSite t l = false := hdecl l (List.mem_cons_self l ls)
        have hdls : ∀ x ∈ ls, declSite t x = false :=
          fun x hx => hdecl x (List.mem_cons_of_mem l hx)
        -- analyse the step
        have hkey_ne : ∀ hb : branchOf l = Br.fparam ∨ branchOf l = Br.lvar,
            l.text ≠ t := by
          intro hb hcontra
          rcases hb with hb | hb <;>
            simp [declSite, hb, hcontra] at hdl
        rcases step_shape sf pol st l st1 out hstep with
          ⟨hm, _, hcat⟩ | ⟨hbr, hm, _, hout⟩ | ⟨hbr, hm, _, hout⟩ | ⟨hbr, hm, _, hout⟩ |
          ⟨hbr, hm, _, hout⟩ | ⟨hst, tok, htok, hout⟩
        · intro em hem hrel
          rcases List.mem_append.mp hem with h | h
          · rw [hcat em h] at hrel
            exact absurd hrel not_relevant_other
          · exact ih st1 rest2 (by rw [hm]; exact hnone) hdls hrest em h hrel
        · intro em hem hrel
          rcases List.mem_append.mp hem with h | h
          · rw [hout] at h
            simp only [List.mem_singleton] at h
            subst h
            exact hkey_ne (Or.inl hbr)
          · exact ih st1 rest2
              (by rw [hm, mfind_cons_ne _ _ _ _ (hkey_ne (Or.inl hbr))]; exact hnone)
              hdls hrest em h hrel
        · intro em hem hrel
          rcases List.mem_append.mp hem with h | h
          · rw [hout] at h
            simp only [List.mem_singleton] at h
            subst h
            exact hkey_ne (Or.inl hbr)
          · exact ih st1 rest2
              (by rw [hm, mfind_cons_ne _ _ _ _ (hkey_ne (Or.inl hbr))]; exact hnone)
              hdls hrest em h hrel
        · intro em hem hrel
          rcases List.mem_append.mp hem with h | h
          · rw [hout] at h
            simp only [List.mem_singleton] at h
            subst h
            exact hkey_ne (Or.inr hbr)
          · exact ih st1 rest2
              (by rw [hm, mfind_cons_ne _ _ _ _ (hkey_ne (Or.inr hbr))]; exact hnone)
              hdls hrest em h hrel
        · intro em hem hrel
          rcases List.mem_append.mp hem with h | h
          · rw [hout] at h
            simp only [List.mem_singleton] at h
            subst h
            exact hkey_ne (Or.inr hbr)
          · exact ih st1 rest2
              (by rw [hm, mfind_cons_ne _ _ _ _ (hkey_ne (Or.inr hbr))]; exact hnone)
              hdls hrest em h hrel
        · intro em hem hrel
          rcases List.mem_append.mp hem with h | h
          · rw [hout] at h
            simp only [List.mem_singleton] at h
            subst h
            intro hcontra
            simp only at hcontra
            rw [hcontra, hnone] at htok
            cases htok
          · refine ih st1 rest2 ?_ hdls hrest em h hrel
            rw [hst]
            exact hnone

/-- If the remaining leaves never rebind `t` and the map binds `t` to
`tok0`, every later relevant emission from `t` carries `tok0`. -/
theorem runAbs_nodecl_some (sf : List Str) (pol : Policy) (t tok0 : Str) :
    ∀ (leaves : List Leaf) (st : AbsState) (ems2 : List Em),
    mfind st.lvar_map t = some tok0 → (∀ l ∈ leaves, declSite t l = false) →
    runAbs sf pol st leaves = .ok ems2 →
    ∀ em ∈ ems2, relevantCat em.cat → em.orig = t → em.tok = tok0 := by
  intro leaves
  induction leaves with
  | nil =>
    intro st ems2 _ _ hrun
    cases hrun
    intro em hem
    simp at hem
  | cons l ls ih =>
    intro st ems2 hsome hdecl hrun
    rw [runAbs] at hrun
    cases hstep : step sf pol st l with
    | error e => rw [hstep] at hrun; cases hrun
    | ok p =>
      obtain ⟨st1, out⟩ := p
      rw [hstep] at hrun
      dsimp only at hrun
      cases hrest : runAbs sf pol st1 ls with
      | error e => rw [hrest] at hrun; cases hrun
      | ok rest2 =>
        rw [hrest] at hrun
        dsimp only at hrun
        cases hrun
        have hdl : declSite t l = false := hdecl l (List.mem_cons_self l ls)
        have hdls : ∀ x ∈ ls, declSite t x = false :=
          fun x hx => hdecl x (List.mem_cons_of_mem l hx)
        have hkey_ne : (branchOf l = Br.fparam ∨ branchOf l = Br.lvar) →
            l.text ≠ t := by
          intro hb hcontra
          rcases hb with hb | hb <;> simp [declSite, hb, hcontra] at hdl
        rcases step_shape sf pol st l st1 out hstep with
          ⟨hm, _, hcat⟩ | ⟨hbr, hm, _, hout⟩ | ⟨hbr, hm, _, hout⟩ | ⟨hbr, hm, _, hout⟩ |
          ⟨hbr, hm, _, hout⟩ | ⟨hst, tok, htok, hout⟩
        · intro em hem hrel horig
          rcases List.mem_append.mp hem with h | h
          · rw [hcat em h] at hrel
            exact absurd hrel not_relevant_other
          · exact ih st1 rest2 (by rw [hm]; exact hsome) hdls hrest em h hrel horig
        · intro em hem hrel horig
          rcases List.mem_append.mp hem with h | h
          · rw [hout] at h
            simp only [List.mem_singleton] at h
            subst h
            dsimp only at horig
            exact absurd horig (hkey_ne (Or.inl hbr))
          · exact ih st1 rest2
              (by rw [hm, mfind_cons_ne _ _ _ _ (hkey_ne (Or.inl hbr))]; exact hsome)
              hdls hrest em h hrel horig
        · intro em hem hrel horig
          rcases List.mem_append.mp hem with h | h
          · rw [hout] at h
            simp only [List.mem_singleton] at h
            subst h
            dsimp only at horig
            exact absurd horig (hkey_ne (Or.inl hbr))
          · exact ih st1 rest2
              (by rw [hm, mfind_cons_ne _ _ _ _ (hkey_ne (Or.inl hbr))]; exact hsome)
              hdls hrest em h hrel horig
        · intro em hem hrel horig
          rcases List.mem_append.mp hem with h | h
          · rw [hout] at h
            simp only [List.mem_singleton] at h
            subst h
            dsimp only at horig
            exact absurd horig (hkey_ne (Or.inr hbr))
          · exact ih st1 rest2
              (by rw [hm, mfind_cons_ne _ _ _ _ (hkey_ne (Or.inr hbr))]; exact hsome)
              hdls hrest em h hrel horig
        · intro em hem hrel horig
          rcases List.mem_append.mp hem with h | h
          · rw [hout] at h
            simp only [List.mem_singleton] at h
            subst h
            dsimp only at horig
            exact absurd horig (hkey_ne (Or.inr hbr))
          · exact ih st1 rest2
              (by rw [hm, mfind_cons_ne _ _ _ _ (hkey_ne (Or.inr hbr))]; exact hsome)
              hdls hrest em h hrel horig
        · intro em hem hrel horig
          rcases List.mem_append.mp hem with h | h
          · rw [hout] at h
            simp only [List.mem_singleton] at h
            subst h
            dsimp only at horig ⊢
            rw [horig] at htok
            rw [hsome] at htok
            injection htok with he
            exact he.symm
          · refine ih st1 rest2 ?_ hdls hrest em h hrel horig
            rw [hst]
            exact hsome

/-- With at most one declaration site for `t` in the remaining leaves and
no live binding for `t`, all relevant emissions from `t` carry one and
the same token. -/
theorem runAbs_stability (sf : List Str) (pol : Policy) (t : Str) :
    ∀ (leaves : List Leaf) (st : AbsState) (ems2 : List Em),
    mfind st.lvar_map t = none →
    leaves.countP (declSite t) ≤ 1 →
    runAbs sf pol st leaves = .ok ems2 →
    ∀ em1 ∈ ems2, ∀ em2 ∈ ems2, relevantCat em1.cat → relevantCat em2.cat →
      em1.orig = t → em2.orig = t → em1.tok = em2.tok := by
  intro leaves
  induction leaves with
  | nil =>
    intro st ems2 _ _ hrun
    cases hrun
    intro em1 h1
    simp at h1
  | cons l ls ih =>
    intro st ems2 hnone hcount hrun
    rw [runAbs] at hrun
    cases hstep : step sf pol st l with
    | error e => rw [hstep] at hrun; cases hrun
    | ok p =>
      obtain ⟨st1, out⟩ := p
      rw [hstep] at hrun
      dsimp only at hrun
      cases hrest : runAbs sf pol st1 ls with
      | error e => rw [hrest] at hrun; cases hrun
      | ok rest2 =>
        rw [hrest] at hrun
        dsimp only at hrun
        cases hrun
        by_cases hd : declSite t l = true
        · have hcount0 : ls.countP (declSite t) = 0 := by
            rw [List.countP_cons] at hcount
            simp only [hd, if_true] at hcount
            omega
          have hdls : ∀ x ∈ ls, declSite t x = false := by
            intro x hx
            exact Bool.eq_false_iff.mpr (List.countP_eq_zero.mp hcount0 x hx)
          have htext : l.text = t := by
            simp [declSite] at hd
            exact hd.2
          have closer2 : ∀ tokNew : Str, mfind st1.lvar_map t = some tokNew →
              (∀ em ∈ out, relevantCat em.cat → em.orig = t → em.tok = tokNew) →
              ∀ em1 ∈ out ++ rest2, ∀ em2 ∈ out ++ rest2,
                relevantCat em1.cat → relevantCat em2.cat →
                em1.orig = t → em2.orig = t → em1.tok = em2.tok := by
            intro tokNew hsome1 hout1 em1 h1 em2 h2 hrel1 hrel2 horig1 horig2
            have hall : ∀ em ∈ out ++ rest2, relevantCat em.cat → em.orig = t →
                em.tok = tokNew := by
              intro em hem hrel horig
              rcases List.mem_append.mp hem with h | h
              · exact hout1 em h hrel horig
              · exact runAbs_nodecl_some sf pol t tokNew ls st1 rest2 hsome1 hdls
                  hrest em h hrel horig
            rw [hall em1 h1 hrel1 horig1, hall em2 h2 hrel2 horig2]
          rcases step_shape sf pol st l st1 out hstep with
            ⟨hm, _, hcat⟩ | ⟨hbr, hm, _, hout⟩ | ⟨hbr, hm, _, hout⟩ | ⟨hbr, hm, _, hout⟩ |
            ⟨hbr, hm, _, hout⟩ | ⟨hst, tok, htok, hout⟩
          · intro em1 h1 em2 h2 hrel1 hrel2 horig1 horig2
            rcases List.mem_append.mp h1 with h | h
            · rw [hcat em1 h] at hrel1
              exact absurd hrel1 not_relevant_other
            · exact absurd horig1
                (runAbs_nodecl_none sf pol t ls st1 rest2 (by rw [hm]; exact hnone)
                  hdls hrest em1 h hrel1)
          · refine closer2 _ (by rw [hm, ← htext, mfind_cons_self]) ?_
            intro em hem hrel horig
            rw [hout] at hem
            simp only [List.mem_singleton] at hem
            subst hem
            rfl
          · refine closer2 _ (by rw [hm, ← htext, mfind_cons_self]) ?_
            intro em hem hrel horig
            rw [hout] at hem
            simp only [List.mem_singleton] at hem
            subst hem
            rfl
          · refine closer2 _ (by rw [hm, ← htext, mfind_cons_self]) ?_
            intro em hem hrel horig
            rw [hout] at hem
            simp only [List.mem_singleton] at hem
            subst hem
            rfl
          · refine closer2 _ (by rw [hm, ← htext, mfind_cons_self]) ?_
            intro em hem hrel horig
            rw [hout] at hem
            simp only [List.mem_singleton] at hem
            subst hem
            rfl
          · exfalso
            rw [htext, hnone] at htok
            cases htok
        · have hdlf : declSite t l = false := by
            cases hdb : declSite t l
            · rfl
            · exact absurd hdb hd
          have hcount' : ls.countP (declSite t) ≤ 1 := by
            rw [List.countP_cons] at hcount
            omega
          have hkey_ne : (branchOf l = Br.fparam ∨ branchOf l = Br.lvar) →
              l.text ≠ t := by
            intro hb hcontra
            rcases hb with hb | hb <;> simp [declSite, hb, hcontra] at hdlf
          have closer : mfind st1.lvar_map t = none →
              (∀ em ∈ out, relevantCat em.cat → em.orig ≠ t) →
              ∀ em1 ∈ out ++ rest2, ∀ em2 ∈ out ++ rest2,
                relevantCat em1.cat → relevantCat em2.cat →
                em1.orig = t → em2.orig = t → em1.tok = em2.tok := by
            intro hnone1 hnot em1 h1 em2 h2 hrel1 hrel2 horig1 horig2
            have g1 : em1 ∈ rest2 := by
              rcases List.mem_append.mp h1 with h | h
              · exact absurd horig1 (hnot em1 h hrel1)
              · exact h
            have g2 : em2 ∈ rest2 := by
              rcases List.mem_append.mp h2 with h | h
              · exact absurd horig2 (hnot em2 h hrel2)
              · exact h
            exact ih st1 rest2 hnone1 hcount' hrest em1 g1 em2 g2 hrel1 hrel2
              horig1 horig2
          rcases step_shape sf pol st l st1 out hstep with
            ⟨hm, _, hcat⟩ | ⟨hbr, hm, _, hout⟩ | ⟨hbr, hm, _, hout⟩ | ⟨hbr, hm, _, hout⟩ |
            ⟨hbr, hm, _, hout⟩ | ⟨hst, tok, htok, hout⟩
          · refine closer (by rw [hm]; exact hnone) ?_
            intro em hem hrel
            rw [hcat em hem] at hrel
            exact absurd hrel not_relevant_other
          · refine closer
              (by rw [hm, mfind_cons_ne _ _ _ _ (hkey_ne (Or.inl hbr))]; exact hnone) ?_
            intro em hem hrel
            rw [hout] at hem
            simp only [List.mem_singleton] at hem
            subst hem
            exact hkey_ne (Or.inl hbr)
          · refine closer
              (by rw [hm, mfind_cons_ne _ _ _ _ (hkey_ne (Or.inl hbr))]; exact hnone) ?_
            intro em hem hrel
            rw [hout] at hem
            simp only [List.mem_singleton] at hem
            subst hem
            exact hkey_ne (Or.inl hbr)
          · refine closer
              (by rw [hm, mfind_cons_ne _ _ _ _ (hkey_ne (Or.inr hbr))]; exact hnone) ?_
            intro em hem hrel
            rw [hout] at hem
            simp only [List.mem_singleton] at hem
            subst hem
            exact hkey_ne (Or.inr hbr)
          · refine closer
              (by rw [hm, mfind_cons_ne _ _ _ _ (hkey_ne (Or.inr hbr))]; exact hnone) ?_
            intro em hem hrel
            rw [hout] at hem
            simp only [List.mem_singleton] at hem
            subst hem
            exact hkey_ne (Or.inr hbr)
          · refine closer (by rw [hst]; exact hnone) ?_
            intro em hem hrel
            rw [hout] at hem
            simp only [List.mem_singleton] at hem
            subst hem
            dsimp only
            intro hcontra
            rw [hcontra, hnone] at htok
            cases htok

/-- C2 counterexample: on
`int f() \x7b int x; x; \x7b int x; \x7d \x7d` (the same local name
declared twice, the second time in a nested block), the run with the
default numbered policy emits the text `x` as `LVAR0` at its first
declaration and use but as `LVAR1` at the re-declaration — the same
original identifier text is not always mapped to the same placeholder. -/
theorem c2_counterexample :
    (runAbs [] polDefault st0 (treeLeaves ceTree2)).map (fun es =>
      (es.filter (fun e => decide (relevantCat e.cat) && decide (e.orig = "x".toList))).map
        Em.tok) =
      .ok ["LVAR0".toList, "LVAR0".toList, "LVAR1".toList] ∧
    IsLvarNumTok "LVAR0".toList ∧ IsLvarNumTok "LVAR1".toList ∧
    "LVAR0".toList ≠ "LVAR1".toList := by
  refine ⟨by decide, ⟨0, by decide⟩, ⟨1, by decide⟩, by decide⟩

/-- C2 (amended): in any run of the engine, (1) two emissions that
interact with `lvar_map` (declaration writes or identifier reads) and
carry the same numbered `LVAR{n}` placeholder always originate from the
same identifier text — distinct texts never collide; and (2) whenever an
original text is bound at most once (one parameter/local declaration
site), every `lvar_map`-relevant emission of that text carries one and
the same placeholder.  Re-declaration of the same text (the
counterexample) is exactly the case excluded by (2). -/
theorem c2_amended (sf : List Str) (pol : Policy) (leaves : List Leaf)
    (ems : List Em) (hrun : runAbs sf pol st0 leaves = .ok ems) :
    (∀ em1 ∈ ems, ∀ em2 ∈ ems, relevantCat em1.cat → relevantCat em2.cat →
      IsLvarNumTok em1.tok → em1.tok = em2.tok → em1.orig = em2.orig)
    ∧ ∀ t : Str, leaves.countP (declSite t) ≤ 1 →
      ∀ em1 ∈ ems, ∀ em2 ∈ ems, relevantCat em1.cat → relevantCat em2.cat →
        em1.orig = t → em2.orig = t → em1.tok = em2.tok := by
  constructor
  · have h := runAbs_collision sf pol leaves st0 [] ems inv1_empty hrun
    intro em1 h1 em2 h2
    exact h em1 (by simpa using h1) em2 (by simpa using h2)
  · intro t hcount
    exact runAbs_stability sf pol t leaves st0 ems (by simp [st0, mfind]) hcount hrun

/-- C2 witness: the amended statement applied to the concrete run over
`int f() \x7b int x; x; \x7d`, where `x` is declared once: its
declaration emission and its use emission carry the same `LVAR0`. -/
theorem c2_witness :
    runAbs [] polDefault st0 (treeLeaves wTree2) = .ok wEms ∧
    (Em.mk .lvarAbs "x".toList "LVAR0".toList).tok =
      (Em.mk .mapUse "x".toList "LVAR0".toList).tok := by
  have hrun : runAbs [] polDefault st0 (treeLeaves wTree2) = .ok wEms := by decide
  refine ⟨hrun, ?_⟩
  exact (c2_amended [] polDefault (treeLeaves wTree2) wEms hrun).2 "x".toList
    (by decide)
    (Em.mk .lvarAbs "x".toList "LVAR0".toList) (by decide)
    (Em.mk .mapUse "x".toList "LVAR0".toList) (by decide)
    (by decide) (by decide) rfl rfl

/-! ### C7 — comment-stripping idempotence (regex half)

The regex stripper is idempotent; the development below proves
`remove_comments_regex (remove_comments_regex l) = remove_comments_regex l`
(`rmc_idempotent` at the end of the section).  The tree-accurate half of
the claim depends on re-parsing the stripped output with the external
tree-sitter library, which is outside the repository, so the claim itself
remains unsettled; the lemma settles the half that is internal. -/

theorem scanLine_length (l : Str) : (scanLine l).length ≤ l.length := by
  induction l with
  | nil => simp [scanLine]
  | cons c rest ih =>
    rw [scanLine]
    split
    · simp
    · simp only [List.length_cons]
      omega

theorem scanLine_suffix (l : Str) : ∃ pre, l = pre ++ scanLine l := by
  induction l with
  | nil => exact ⟨[], rfl⟩
  | cons c rest ih =>
    rw [scanLine]
    split
    · exact ⟨[], rfl⟩
    · obtain ⟨pre, hpre⟩ := ih
      exact ⟨c :: pre, by rw [List.cons_append, ← hpre]⟩

theorem scanBlock_length : ∀ (l r : Str), scanBlock l = some r → r.length ≤ l.length := by
  intro l
  induction l with
  | nil => intro r h; cases h
  | cons c rest ih =>
    intro r h
    cases rest with
    | nil => cases h
    | cons d rest2 =>
      rw [scanBlock] at h
      split at h
      · injection h with hr
        rw [← hr]
        simp only [List.length_cons]
        omega
      · have := ih r h
        simp only [List.length_cons] at this ⊢
        omega

theorem scanStr_length_aux (q : Char) :
    ∀ (n : Nat) (l s r : Str), l.length ≤ n → scanStr q l = some (s, r) →
      r.length ≤ l.length := by
  intro n
  induction n with
  | zero =>
    intro l s r hl h
    match l, hl with
    | [], _ => cases h
  | succ n ih =>
    intro l s r hl h
    match l with
    | [] => cases h
    | c :: rest =>
      rw [scanStr.eq_def] at h
      dsimp only at h
      split at h
      · cases h
        simp only [List.length_cons]
        omega
      · split at h
        · match rest, h with
          | [], h => cases h
          | d :: rest2, h =>
            dsimp only at h
            cases hrec : scanStr q rest2 with
            | none => rw [hrec] at h; cases h
            | some p =>
              obtain ⟨s1, r1⟩ := p
              rw [hrec] at h
              injection h with hpair
              injection hpair with hs hr
              subst hr
              have hlen := ih rest2 s1 r1 (by
                simp only [List.length_cons] at hl
                omega) hrec
              simp only [List.length_cons]
              omega
        · cases hrec : scanStr q rest with
          | none => rw [hrec] at h; cases h
          | some p =>
            obtain ⟨s1, r1⟩ := p
            rw [hrec] at h
            injection h with hpair
            injection hpair with hs hr
            subst hr
            have hlen := ih rest s1 r1 (by
              simp only [List.length_cons] at hl
              omega) hrec
            simp only [List.length_cons]
            omega

theorem scanStr_length (q : Char) (l s r : Str) (h : scanStr q l = some (s, r)) :
    r.length ≤ l.length :=
  scanStr_length_aux q l.length l s r le_rfl h

/-! Generic one-step unfolding lemmas for `rmcGo` with successor fuel,
one per branch of the scan. -/

theorem rmcGo_line (f : Nat) (r : Str) :
    rmcGo (f + 1) ('/' :: '/' :: r) = ' ' :: rmcGo f (scanLine r) := by
  rw [rmcGo.eq_def]
  dsimp only
  rw [if_pos rfl, if_pos rfl]

theorem rmcGo_block_some (f : Nat) (r r3 : Str) (h : scanBlock r = some r3) :
    rmcGo (f + 1) ('/' :: '*' :: r) = ' ' :: rmcGo f r3 := by
  rw [rmcGo.eq_def]
  dsimp only
  rw [if_pos rfl, if_neg (by decide), if_pos rfl, h]

theorem rmcGo_block_none (f : Nat) (r : Str) (h : scanBlock r = none) :
    rmcGo (f + 1) ('/' :: '*' :: r) = '/' :: rmcGo f ('*' :: r) := by
  rw [rmcGo.eq_def]
  dsimp only
  rw [if_pos rfl, if_neg (by decide), if_pos rfl, h]

theorem rmcGo_slash_nil (f : Nat) :
    rmcGo (f + 1) ['/'] = '/' :: rmcGo f [] := by
  rw [rmcGo.eq_def]
  dsimp only
  rw [if_pos rfl]

theorem rmcGo_slash_other (f : Nat) (d : Char) (r : Str) (hd : d ≠ '/') (hd2 : d ≠ '*') :
    rmcGo (f + 1) ('/' :: d :: r) = '/' :: rmcGo f (d :: r) := by
  rw [rmcGo.eq_def]
  dsimp only
  rw [if_pos rfl, if_neg hd, if_neg hd2]

theorem quote_ne_slash (c : Char) (hq : c = sq ∨ c = dq) : c ≠ '/' := by
  rcases hq with h1 | h1 <;> rw [h1] <;> decide

theorem rmcGo_quote_some (f : Nat) (c : Char) (r s t : Str) (hq : c = sq ∨ c = dq)
    (h : scanStr c r = some (s, t)) :
    rmcGo (f + 1) (c :: r) = c :: (s ++ rmcGo f t) := by
  rw [rmcGo.eq_def]
  dsimp only
  rw [if_neg (quote_ne_slash c hq), if_pos hq, h]

theorem rmcGo_quote_none (f : Nat) (c : Char) (r : Str) (hq : c = sq ∨ c = dq)
    (h : scanStr c r = none) :
    rmcGo (f + 1) (c :: r) = c :: rmcGo f r := by
  rw [rmcGo.eq_def]
  dsimp only
  rw [if_neg (quote_ne_slash c hq), if_pos hq, h]

theorem rmcGo_other (f : Nat) (c : Char) (r : Str) (hc : c ≠ '/') (hq : ¬(c = sq ∨ c = dq)) :
    rmcGo (f + 1) (c :: r) = c :: rmcGo f r := by
  rw [rmcGo.eq_def]
  dsimp only
  rw [if_neg hc, if_neg hq]

/-- The fuel in `rmcGo` is irrelevant once it exceeds the input length. -/
theorem rmcGo_congr_aux : ∀ (n : Nat), ∀ (l : Str) (f g : Nat), l.length ≤ n →
    l.length < f → l.length < g → rmcGo f l = rmcGo g l := by
  intro n
  induction n with
  | zero =>
    intro l f g hl hf hg
    match l, hl with
    | [], _ =>
      match f, hf, g, hg with
      | f' + 1, _, g' + 1, _ => rfl
  | succ n ih =>
    intro l f g hl hf hg
    obtain ⟨f', rfl⟩ : ∃ f', f = f' + 1 := ⟨f - 1, by omega⟩
    obtain ⟨g', rfl⟩ : ∃ g', g = g' + 1 := ⟨g - 1, by omega⟩
    cases l with
    | nil => rfl
    | cons c rest =>
      simp only [List.length_cons] at hl hf hg
      by_cases hc : c = '/'
      · subst hc
        cases rest with
        | nil =>
          simp only [List.length_nil] at hl hf hg
          rw [rmcGo_slash_nil, rmcGo_slash_nil,
            ih [] f' g' (by simp) (by simp; omega) (by simp; omega)]
        | cons d rest2 =>
          simp only [List.length_cons] at hl hf hg
          by_cases hd : d = '/'
          · subst hd
            have hsl := scanLine_length rest2
            rw [rmcGo_line, rmcGo_line,
              ih (scanLine rest2) f' g' (by omega) (by omega) (by omega)]
          · by_cases hd2 : d = '*'
            · subst hd2
              cases hsb : scanBlock rest2 with
              | some rest3 =>
                have hbl := scanBlock_length rest2 rest3 hsb
                rw [rmcGo_block_some f' rest2 rest3 hsb, rmcGo_block_some g' rest2 rest3 hsb,
                  ih rest3 f' g' (by omega) (by omega) (by omega)]
              | none =>
                rw [rmcGo_block_none f' rest2 hsb, rmcGo_block_none g' rest2 hsb,
                  ih ('*' :: rest2) f' g'
                    (by simp only [List.length_cons]; omega)
                    (by simp only [List.length_cons]; omega)
                    (by simp only [List.length_cons]; omega)]
            · rw [rmcGo_slash_other f' d rest2 hd hd2, rmcGo_slash_other g' d rest2 hd hd2,
                ih (d :: rest2) f' g'
                  (by simp only [List.length_cons]; omega)
                  (by simp only [List.length_cons]; omega)
                  (by simp only [List.length_cons]; omega)]
      · by_cases hq : c = sq ∨ c = dq
        · cases hss : scanStr c rest with
          | some p =>
            obtain ⟨s, r⟩ := p
            have hsl := scanStr_length c rest s r hss
            rw [rmcGo_quote_some f' c rest s r hq hss, rmcGo_quote_some g' c rest s r hq hss,
              ih r f' g' (by omega) (by omega) (by omega)]
          | none =>
            rw [rmcGo_quote_none f' c rest hq hss, rmcGo_quote_none g' c rest hq hss,
              ih rest f' g' (by omega) (by omega) (by omega)]
        · rw [rmcGo_other f' c rest hc hq, rmcGo_other g' c rest hc hq,
            ih rest f' g' (by omega) (by omega) (by omega)]

theorem rmcGo_congr (l : Str) (f g : Nat) (hf : l.length < f) (hg : l.length < g) :
    rmcGo f l = rmcGo g l :=
  rmcGo_congr_aux l.length l f g le_rfl hf hg

/-- `rmcGo` with adequate fuel computes `remove_comments_regex`. -/
theorem rmcGo_eq_rmcr (l : Str) (f : Nat) (hf : l.length < f) :
    rmcGo f l = remove_comments_regex l :=
  rmcGo_congr l f (l.length + 1) hf (by omega)

theorem rmcr_nil : remove_comments_regex [] = [] := rfl

theorem rmcr_line (r : Str) :
    remove_comments_regex ('/' :: '/' :: r) = ' ' :: remove_comments_regex (scanLine r) := by
  show rmcGo (r.length + 2 + 1) ('/' :: '/' :: r) = _
  rw [rmcGo_line]
  rw [rmcGo_eq_rmcr (scanLine r) (r.length + 2) (by have := scanLine_length r; omega)]

theorem rmcr_block_some (r r3 : Str) (h : scanBlock r = some r3) :
    remove_comments_regex ('/' :: '*' :: r) = ' ' :: remove_comments_regex r3 := by
  show rmcGo (r.length + 2 + 1) ('/' :: '*' :: r) = _
  rw [rmcGo_block_some (r.length + 2) r r3 h]
  rw [rmcGo_eq_rmcr r3 (r.length + 2) (by have := scanBlock_length r r3 h; omega)]

theorem rmcr_block_none (r : Str) (h : scanBlock r = none) :
    remove_comments_regex ('/' :: '*' :: r) = '/' :: remove_comments_regex ('*' :: r) := by
  show rmcGo (r.length + 2 + 1) ('/' :: '*' :: r) = '/' :: rmcGo (r.length + 1 + 1) ('*' :: r)
  rw [rmcGo_block_none (r.length + 2) r h]

theorem rmcr_slash_nil : remove_comments_regex ['/'] = ['/'] := rfl

theorem rmcr_slash_other (d : Char) (r : Str) (hd : d ≠ '/') (hd2 : d ≠ '*') :
    remove_comments_regex ('/' :: d :: r) = '/' :: remove_comments_regex (d :: r) := by
  show rmcGo (r.length + 2 + 1) ('/' :: d :: r) = '/' :: rmcGo (r.length + 1 + 1) (d :: r)
  rw [rmcGo_slash_other (r.length + 2) d r hd hd2]

theorem rmcr_quote_some (c : Char) (r s t : Str) (hq : c = sq ∨ c = dq)
    (h : scanStr c r = some (s, t)) :
    remove_comments_regex (c :: r) = c :: (s ++ remove_comments_regex t) := by
  show rmcGo (r.length + 1 + 1) (c :: r) = _
  rw [rmcGo_quote_some (r.length + 1) c r s t hq h]
  rw [rmcGo_eq_rmcr t (r.length + 1) (by have := scanStr_length c r s t h; omega)]

theorem rmcr_quote_none (c : Char) (r : Str) (hq : c = sq ∨ c = dq)
    (h : scanStr c r = none) :
    remove_comments_regex (c :: r) = c :: remove_comments_regex r := by
  show rmcGo (r.length + 1 + 1) (c :: r) = c :: rmcGo (r.length + 1) r
  rw [rmcGo_quote_none (r.length + 1) c r hq h]

theorem rmcr_other (c : Char) (r : Str) (hc : c ≠ '/') (hq : ¬(c = sq ∨ c = dq)) :
    remove_comments_regex (c :: r) = c :: remove_comments_regex r := by
  show rmcGo (r.length + 1 + 1) (c :: r) = c :: rmcGo (r.length + 1) r
  rw [rmcGo_other (r.length + 1) c r hc hq]

/-! Lemmas about absence of a `*/` terminator (`scanBlock` returning
`none`): it is a local property of adjacent character pairs, so it
decomposes over cons and append. -/

theorem sbn_cons_iff (c d : Char) (t : Str) :
    scanBlock (c :: d :: t) = none ↔ ¬(c = '*' ∧ d = '/') ∧ scanBlock (d :: t) = none := by
  rw [scanBlock]
  split
  · simp [*]
  · simp [*]

theorem sbn_tail (c : Char) (t : Str) (h : scanBlock (c :: t) = none) :
    scanBlock t = none := by
  cases t with
  | nil => rfl
  | cons d t2 => exact ((sbn_cons_iff c d t2).1 h).2

theorem sbn_cons_build (c : Char) (t : Str) (h : scanBlock t = none)
    (hb : ∀ e t2, t = e :: t2 → ¬(c = '*' ∧ e = '/')) : scanBlock (c :: t) = none := by
  cases t with
  | nil => rfl
  | cons e t2 => exact (sbn_cons_iff c e t2).2 ⟨hb e t2 rfl, h⟩

theorem sbn_append : ∀ (a b : Str), scanBlock (a ++ b) = none ↔
    scanBlock a = none ∧ scanBlock b = none ∧
      ¬(a.getLast? = some '*' ∧ b.head? = some '/') := by
  intro a
  induction a with
  | nil =>
    intro b
    simp [scanBlock]
  | cons c a' ih =>
    intro b
    cases a' with
    | nil =>
      cases b with
      | nil => simp [scanBlock]
      | cons e b2 =>
        simp only [List.cons_append, List.nil_append]
        rw [sbn_cons_iff]
        simp only [scanBlock, List.getLast?_singleton, List.head?_cons,
          Option.some.injEq]
        tauto
    | cons d a2 =>
      simp only [List.cons_append]
      simp only [List.cons_append] at ih
      rw [sbn_cons_iff, ih b, sbn_cons_iff]
      rw [show (c :: d :: a2).getLast? = (d :: a2).getLast? from List.getLast?_cons_cons]
      tauto

/-- The head of the stripped output is the head of the input or a space. -/
theorem rmcr_head (c : Char) (rest : Str) :
    (remove_comments_regex (c :: rest)).head? = some c ∨
    (remove_comments_regex (c :: rest)).head? = some ' ' := by
  by_cases hc : c = '/'
  · subst hc
    cases rest with
    | nil => left; rfl
    | cons d rest2 =>
      by_cases hd : d = '/'
      · subst hd; rw [rmcr_line]; right; rfl
      · by_cases hd2 : d = '*'
        · subst hd2
          cases hsb : scanBlock rest2 with
          | some r3 => rw [rmcr_block_some rest2 r3 hsb]; right; rfl
          | none => rw [rmcr_block_none rest2 hsb]; left; rfl
        · rw [rmcr_slash_other d rest2 hd hd2]; left; rfl
  · by_cases hq : c = sq ∨ c = dq
    · cases hss : scanStr c rest with
      | some p =>
        obtain ⟨s, t⟩ := p
        rw [rmcr_quote_some c rest s t hq hss]; left; rfl
      | none => rw [rmcr_quote_none c rest hq hss]; left; rfl
    · rw [rmcr_other c rest hc hq]; left; rfl

/-- A slash at the head of the stripped output comes from a slash at the
head of the input (the substitution only ever writes a space there). -/
theorem rmcr_head_slash (t : Str) (h : (remove_comments_regex t).head? = some '/') :
    t.head? = some '/' := by
  cases t with
  | nil => rw [rmcr_nil] at h; cases h
  | cons e t2 =>
    rcases rmcr_head e t2 with h1 | h1
    · rw [h1] at h
      injection h with h2
      rw [List.head?_cons, h2]
    · rw [h1] at h
      injection h with h2
      exact absurd h2 (by decide)

/-- `scanStr` decomposes its input as matched body plus remainder. -/
theorem scanStr_split_aux (q : Char) : ∀ (n : Nat) (l s r : Str), l.length ≤ n →
    scanStr q l = some (s, r) → l = s ++ r := by
  intro n
  induction n with
  | zero =>
    intro l s r hl h
    match l, hl with
    | [], _ => cases h
  | succ n ih =>
    intro l s r hl h
    match l with
    | [] => cases h
    | c :: rest =>
      rw [scanStr.eq_def] at h
      dsimp only at h
      split at h
      · injection h with hp
        injection hp with hs hr
        rw [← hs, ← hr]
        rfl
      · split at h
        · match rest, h with
          | [], h => cases h
          | d :: rest2, h =>
            dsimp only at h
            cases hrec : scanStr q rest2 with
            | none => rw [hrec] at h; cases h
            | some p =>
              obtain ⟨s1, r1⟩ := p
              rw [hrec] at h
              injection h with hp
              injection hp with hs hr
              have hsp := ih rest2 s1 r1 (by
                simp only [List.length_cons] at hl
                omega) hrec
              rw [← hs, ← hr, hsp]
              rfl
        · cases hrec : scanStr q rest with
          | none => rw [hrec] at h; cases h
          | some p =>
            obtain ⟨s1, r1⟩ := p
            rw [hrec] at h
            injection h with hp
            injection hp with hs hr
            have hsp := ih rest s1 r1 (by
              simp only [List.length_cons] at hl
              omega) hrec
            rw [← hs, ← hr, hsp]
            rfl

theorem scanStr_split (q : Char) (l s r : Str) (h : scanStr q l = some (s, r)) :
    l = s ++ r :=
  scanStr_split_aux q l.length l s r le_rfl h

/-- The substitution pass never introduces a `*/` terminator: if the input
has none, the output has none. -/
theorem sbn_rmcr_aux : ∀ (n : Nat) (l : Str), l.length ≤ n → scanBlock l = none →
    scanBlock (remove_comments_regex l) = none := by
  intro n
  induction n with
  | zero =>
    intro l hl h
    match l, hl with
    | [], _ => rw [rmcr_nil]; rfl
  | succ n ih =>
    intro l hl h
    cases l with
    | nil => rw [rmcr_nil]; rfl
    | cons c rest =>
      simp only [List.length_cons] at hl
      by_cases hc : c = '/'
      · subst hc
        cases rest with
        | nil => rw [rmcr_slash_nil]; rfl
        | cons d rest2 =>
          simp only [List.length_cons] at hl
          by_cases hd : d = '/'
          · subst hd
            rw [rmcr_line]
            have h2 : scanBlock rest2 = none := sbn_tail _ _ (sbn_tail _ _ h)
            obtain ⟨pre, hpre⟩ := scanLine_suffix rest2
            have h3 : scanBlock (scanLine rest2) = none := by
              rw [hpre] at h2
              exact ((sbn_append pre (scanLine rest2)).1 h2).2.1
            have h4 := ih (scanLine rest2) (by have := scanLine_length rest2; omega) h3
            exact sbn_cons_build ' ' _ h4 (fun e t2 _ hce => by
              exact absurd hce.1 (by decide))
          · by_cases hd2 : d = '*'
            · subst hd2
              have h2 : scanBlock rest2 = none := sbn_tail _ _ (sbn_tail _ _ h)
              rw [rmcr_block_none rest2 h2]
              have h3 : scanBlock ('*' :: rest2) = none := sbn_tail _ _ h
              have h4 := ih ('*' :: rest2) (by simp only [List.length_cons]; omega) h3
              exact sbn_cons_build '/' _ h4 (fun e t2 _ hce => by
                exact absurd hce.1 (by decide))
            · rw [rmcr_slash_other d rest2 hd hd2]
              have h4 := ih (d :: rest2) (by simp only [List.length_cons]; omega)
                (sbn_tail _ _ h)
              exact sbn_cons_build '/' _ h4 (fun e t2 _ hce => by
                exact absurd hce.1 (by decide))
      · by_cases hq : c = sq ∨ c = dq
        · cases hss : scanStr c rest with
          | some p =>
            obtain ⟨s, t⟩ := p
            rw [rmcr_quote_some c rest s t hq hss]
            have hsplit := scanStr_split c rest s t hss
            have hin : scanBlock ((c :: s) ++ t) = none := by
              rw [List.cons_append, ← hsplit]
              exact h
            obtain ⟨hA, hB, hC⟩ := (sbn_append (c :: s) t).1 hin
            have hrt := ih t (by
              have := scanStr_length c rest s t hss
              omega) hB
            have hout : scanBlock ((c :: s) ++ remove_comments_regex t) = none := by
              refine (sbn_append (c :: s) (remove_comments_regex t)).2 ⟨hA, hrt, ?_⟩
              rintro ⟨h1, h2⟩
              exact hC ⟨h1, rmcr_head_slash t h2⟩
            rw [List.cons_append] at hout
            exact hout
          | none =>
            rw [rmcr_quote_none c rest hq hss]
            have h4 := ih rest (by omega) (sbn_tail _ _ h)
            refine sbn_cons_build c _ h4 (fun e t2 _ hce => ?_)
            rcases hq with hq1 | hq1 <;> rw [hq1] at hce <;>
              exact absurd hce.1 (by decide)
        · rw [rmcr_other c rest hc hq]
          have h4 := ih rest (by omega) (sbn_tail _ _ h)
          refine sbn_cons_build c _ h4 (fun e t2 het hce => ?_)
          obtain ⟨h1, h2⟩ := hce
          have hh : (remove_comments_regex rest).head? = some '/' := by
            rw [het, List.head?_cons, h2]
          have hrh := rmcr_head_slash rest hh
          cases rest with
          | nil => cases hrh
          | cons e2 t3 =>
            rw [List.head?_cons] at hrh
            injection hrh with he2
            subst h1
            exact ((sbn_cons_iff '*' e2 t3).1 h).1 ⟨rfl, he2⟩

theorem sbn_rmcr (l : Str) (h : scanBlock l = none) :
    scanBlock (remove_comments_regex l) = none :=
  sbn_rmcr_aux l.length l le_rfl h

/-! Step lemmas for `scanStr`, used to push a failed quote scan through the
other scanners and through the substitution pass. -/

theorem scanStr_self (q : Char) (t : Str) : scanStr q (q :: t) = some ([q], t) := by
  rw [scanStr.eq_def]
  dsimp only
  rw [if_pos rfl]

theorem scanStr_none_cons (q c : Char) (t : Str) (hcq : c ≠ q) (hce : c ≠ '\\') :
    (scanStr q (c :: t) = none ↔ scanStr q t = none) := by
  rw [scanStr.eq_def]
  dsimp only
  rw [if_neg hcq, if_neg hce]
  cases scanStr q t with
  | none => simp
  | some p => obtain ⟨s, r⟩ := p; simp

theorem scanStr_none_esc (q d : Char) (t : Str) (hbq : ('\\' : Char) ≠ q) :
    (scanStr q ('\\' :: d :: t) = none ↔ scanStr q t = none) := by
  rw [scanStr.eq_def]
  dsimp only
  rw [if_neg hbq, if_pos rfl]
  cases scanStr q t with
  | none => simp
  | some p => obtain ⟨s, r⟩ := p; simp

theorem scanStr_backslash_nil (q : Char) (hbq : ('\\' : Char) ≠ q) :
    scanStr q ['\\'] = none := by
  rw [scanStr.eq_def]
  dsimp only
  rw [if_neg hbq, if_pos rfl]

/-- A quote scan that fails on the input also fails on the rest of the
line that a `//` comment leaves behind. -/
theorem scanStr_none_scanLine_aux (q : Char) (hq : q = sq ∨ q = dq) :
    ∀ (n : Nat) (l : Str), l.length ≤ n → scanStr q l = none →
      scanStr q (scanLine l) = none := by
  have hbq : ('\\' : Char) ≠ q := by
    rcases hq with h1 | h1 <;> rw [h1] <;> decide
  have hnq : ('\n' : Char) ≠ q := by
    rcases hq with h1 | h1 <;> rw [h1] <;> decide
  intro n
  induction n with
  | zero =>
    intro l hl h
    match l, hl with
    | [], _ => exact h
  | succ n ih =>
    intro l hl h
    cases l with
    | nil => exact h
    | cons c rest =>
      simp only [List.length_cons] at hl
      rw [scanLine]
      split
      · exact h
      · rename_i hcn
        by_cases hcq : c = q
        · rw [hcq, scanStr_self q rest] at h
          cases h
        · by_cases hce : c = '\\'
          · subst hce
            cases rest with
            | nil => exact rfl
            | cons d rest2 =>
              rw [scanStr_none_esc q d rest2 hbq] at h
              simp only [List.length_cons] at hl
              rw [scanLine]
              split
              · rename_i hdn
                rw [hdn]
                rw [scanStr_none_cons q '\n' rest2 hnq (by decide)]
                exact h
              · exact ih rest2 (by omega) h
          · rw [scanStr_none_cons q c rest hcq hce] at h
            exact ih rest (by omega) h

theorem scanStr_none_scanLine (q : Char) (hq : q = sq ∨ q = dq) (l : Str)
    (h : scanStr q l = none) : scanStr q (scanLine l) = none :=
  scanStr_none_scanLine_aux q hq l.length l le_rfl h

/-- A quote scan that fails on the input also fails on the rest that a
closed `/*...*/` comment leaves behind. -/
theorem scanStr_none_scanBlock_aux (q : Char) (hq : q = sq ∨ q = dq) :
    ∀ (n : Nat) (l r : Str), l.length ≤ n → scanStr q l = none →
      scanBlock l = some r → scanStr q r = none := by
  have hbq : ('\\' : Char) ≠ q := by
    rcases hq with h1 | h1 <;> rw [h1] <;> decide
  have hsq : ('/' : Char) ≠ q := by
    rcases hq with h1 | h1 <;> rw [h1] <;> decide
  intro n
  induction n with
  | zero =>
    intro l r hl h hb
    match l, hl with
    | [], _ => cases hb
  | succ n ih =>
    intro l r hl h hb
    cases l with
    | nil => cases hb
    | cons c rest =>
      simp only [List.length_cons] at hl
      by_cases hcq : c = q
      · rw [hcq, scanStr_self q rest] at h
        cases h
      · by_cases hce : c = '\\'
        · subst hce
          cases rest with
          | nil => cases hb
          | cons d rest2 =>
            simp only [List.length_cons] at hl
            rw [scanStr_none_esc q d rest2 hbq] at h
            rw [scanBlock] at hb
            rw [if_neg (fun hh => absurd hh.1 (by decide))] at hb
            cases rest2 with
            | nil =>
              rw [show scanBlock [d] = none from rfl] at hb
              cases hb
            | cons e rest3 =>
              simp only [List.length_cons] at hl
              rw [scanBlock] at hb
              split at hb
              · rename_i hde
                injection hb with hr
                rw [scanStr_none_cons q e rest3
                  (by rw [hde.2]; exact hsq) (by rw [hde.2]; decide)] at h
                rw [← hr]
                exact h
              · exact ih (e :: rest3) r (by simp only [List.length_cons]; omega) h hb
        · rw [scanStr_none_cons q c rest hcq hce] at h
          cases rest with
          | nil =>
            rw [show scanBlock [c] = none from rfl] at hb
            cases hb
          | cons d rest2 =>
            simp only [List.length_cons] at hl
            rw [scanBlock] at hb
            split at hb
            · rename_i hcd
              injection hb with hr
              rw [scanStr_none_cons q d rest2
                (by rw [hcd.2]; exact hsq) (by rw [hcd.2]; decide)] at h
              rw [← hr]
              exact h
            · exact ih (d :: rest2) r (by simp only [List.length_cons]; omega) h hb

theorem scanStr_none_scanBlock (q : Char) (hq : q = sq ∨ q = dq) (l r : Str)
    (h : scanStr q l = none) (hb : scanBlock l = some r) : scanStr q r = none :=
  scanStr_none_scanBlock_aux q hq l.length l r le_rfl h hb

/-- A matched quote body rescans the same way in front of any remainder:
the scan stops at the closing quote it contains. -/
theorem scanStr_replace_aux (q : Char) : ∀ (n : Nat) (l s r : Str), l.length ≤ n →
    scanStr q l = some (s, r) → ∀ m, scanStr q (s ++ m) = some (s, m) := by
  intro n
  induction n with
  | zero =>
    intro l s r hl h m
    match l, hl with
    | [], _ => cases h
  | succ n ih =>
    intro l s r hl h m
    match l with
    | [] => cases h
    | c :: rest =>
      rw [scanStr.eq_def] at h
      dsimp only at h
      split at h
      · rename_i hcq
        injection h with hp
        injection hp with hs hr
        rw [← hs, hcq]
        exact scanStr_self q m
      · rename_i hcq
        split at h
        · rename_i hce
          match rest, h with
          | [], h => cases h
          | d :: rest2, h =>
            dsimp only at h
            cases hrec : scanStr q rest2 with
            | none => rw [hrec] at h; cases h
            | some p =>
              obtain ⟨s1, r1⟩ := p
              rw [hrec] at h
              injection h with hp
              injection hp with hs hr
              have hrep := ih rest2 s1 r1 (by
                simp only [List.length_cons] at hl
                omega) hrec m
              rw [← hs]
              show scanStr q (c :: d :: (s1 ++ m)) = some (c :: d :: s1, m)
              rw [scanStr.eq_def]
              dsimp only
              rw [if_neg hcq, if_pos hce, hrep]
        · rename_i hce
          cases hrec : scanStr q rest with
          | none => rw [hrec] at h; cases h
          | some p =>
            obtain ⟨s1, r1⟩ := p
            rw [hrec] at h
            injection h with hp
            injection hp with hs hr
            have hrep := ih rest s1 r1 (by
              simp only [List.length_cons] at hl
              omega) hrec m
            rw [← hs]
            show scanStr q (c :: (s1 ++ m)) = some (c :: s1, m)
            rw [scanStr.eq_def]
            dsimp only
            rw [if_neg hcq, if_neg hce, hrep]

theorem scanStr_replace (q : Char) (l s r : Str) (h : scanStr q l = some (s, r))
    (m : Str) : scanStr q (s ++ m) = some (s, m) :=
  scanStr_replace_aux q l.length l s r le_rfl h m

/-- Failure of the quote scan on `s ++ m` is monotone in the tail `m`,
provided the replacement tail fails wherever the original does — both when
entered at a character boundary and when entered as the partner of a
pending backslash. -/
theorem scanStr_append_mono_aux (q : Char) (hbq : ('\\' : Char) ≠ q) :
    ∀ (n : Nat) (s m m' : Str), s.length ≤ n →
    (scanStr q m = none → scanStr q m' = none) →
    ((m = [] ∨ scanStr q m.tail = none) → (m' = [] ∨ scanStr q m'.tail = none)) →
    scanStr q (s ++ m) = none → scanStr q (s ++ m') = none := by
  intro n
  induction n with
  | zero =>
    intro s m m' hs h1 h2 h
    match s, hs with
    | [], _ => exact h1 h
  | succ n ih =>
    intro s m m' hs h1 h2 h
    cases s with
    | nil => exact h1 h
    | cons c s' =>
      simp only [List.length_cons] at hs
      simp only [List.cons_append] at h ⊢
      by_cases hcq : c = q
      · rw [hcq, scanStr_self] at h
        cases h
      · by_cases hce : c = '\\'
        · subst hce
          cases s' with
          | nil =>
            simp only [List.nil_append] at h ⊢
            cases m' with
            | nil => exact scanStr_backslash_nil q hbq
            | cons e' t' =>
              rw [scanStr_none_esc q e' t' hbq]
              have hm : m = [] ∨ scanStr q m.tail = none := by
                cases m with
                | nil => exact Or.inl rfl
                | cons e t =>
                  rw [scanStr_none_esc q e t hbq] at h
                  exact Or.inr h
              rcases h2 hm with h3 | h3
              · cases h3
              · exact h3
          | cons d s2 =>
            simp only [List.cons_append] at h ⊢
            rw [scanStr_none_esc q d _ hbq] at h
            rw [scanStr_none_esc q d _ hbq]
            exact ih s2 m m' (by simp only [List.length_cons] at hs; omega) h1 h2 h
        · rw [scanStr_none_cons q c _ hcq hce] at h
          rw [scanStr_none_cons q c _ hcq hce]
          exact ih s' m m' (by omega) h1 h2 h

theorem scanStr_append_mono (q : Char) (hbq : ('\\' : Char) ≠ q) (s m m' : Str)
    (h1 : scanStr q m = none → scanStr q m' = none)
    (h2 : (m = [] ∨ scanStr q m.tail = none) → (m' = [] ∨ scanStr q m'.tail = none))
    (h : scanStr q (s ++ m) = none) : scanStr q (s ++ m') = none :=
  scanStr_append_mono_aux q hbq s.length s m m' le_rfl h1 h2 h

/-- The substitution pass never introduces an unescaped closing quote: if
the quote scan fails on the input it fails on the output, both when the
scan enters at a character boundary (first conjunct) and when it enters
one character in, as the partner of a pending backslash (second
conjunct). -/
theorem scanStr_none_rmcr_aux (q : Char) (hq : q = sq ∨ q = dq) : ∀ (n : Nat),
    (∀ l : Str, l.length ≤ n → scanStr q l = none →
      scanStr q (remove_comments_regex l) = none) ∧
    (∀ l : Str, l.length ≤ n → (l = [] ∨ scanStr q l.tail = none) →
      (remove_comments_regex l = [] ∨
        scanStr q (remove_comments_regex l).tail = none)) := by
  have hbq : ('\\' : Char) ≠ q := by rcases hq with h1 | h1 <;> rw [h1] <;> decide
  have hsq : ('/' : Char) ≠ q := by rcases hq with h1 | h1 <;> rw [h1] <;> decide
  have hstq : ('*' : Char) ≠ q := by rcases hq with h1 | h1 <;> rw [h1] <;> decide
  have hspq : (' ' : Char) ≠ q := by rcases hq with h1 | h1 <;> rw [h1] <;> decide
  intro n
  induction n with
  | zero =>
    constructor
    · intro l hl h
      match l, hl with
      | [], _ => rw [rmcr_nil]; exact h
    · intro l hl _
      match l, hl with
      | [], _ => rw [rmcr_nil]; exact Or.inl rfl
  | succ n ih =>
    obtain ⟨ihA, ihB⟩ := ih
    constructor
    · intro l hl h
      cases l with
      | nil => rw [rmcr_nil]; exact h
      | cons c rest =>
        simp only [List.length_cons] at hl
        by_cases hc : c = '/'
        · subst hc
          cases rest with
          | nil => rw [rmcr_slash_nil]; exact h
          | cons d rest2 =>
            simp only [List.length_cons] at hl
            by_cases hd : d = '/'
            · subst hd
              rw [rmcr_line]
              rw [scanStr_none_cons q '/' ('/' :: rest2) hsq (by decide)] at h
              rw [scanStr_none_cons q '/' rest2 hsq (by decide)] at h
              have h2 := scanStr_none_scanLine q hq rest2 h
              have h3 := ihA (scanLine rest2)
                (by have := scanLine_length rest2; omega) h2
              rw [scanStr_none_cons q ' ' _ hspq (by decide)]
              exact h3
            · by_cases hd2 : d = '*'
              · subst hd2
                rw [scanStr_none_cons q '/' ('*' :: rest2) hsq (by decide)] at h
                rw [scanStr_none_cons q '*' rest2 hstq (by decide)] at h
                cases hsb : scanBlock rest2 with
                | some rest3 =>
                  rw [rmcr_block_some rest2 rest3 hsb]
                  have h2 := scanStr_none_scanBlock q hq rest2 rest3 h hsb
                  have h3 := ihA rest3
                    (by have := scanBlock_length rest2 rest3 hsb; omega) h2
                  rw [scanStr_none_cons q ' ' _ hspq (by decide)]
                  exact h3
                | none =>
                  rw [rmcr_block_none rest2 hsb]
                  rw [rmcr_other '*' rest2 (by decide) (by decide)]
                  rw [scanStr_none_cons q '/' _ hsq (by decide)]
                  rw [scanStr_none_cons q '*' _ hstq (by decide)]
                  exact ihA rest2 (by omega) h
              · rw [rmcr_slash_other d rest2 hd hd2]
                rw [scanStr_none_cons q '/' (d :: rest2) hsq (by decide)] at h
                rw [scanStr_none_cons q '/' _ hsq (by decide)]
                exact ihA (d :: rest2) (by simp only [List.length_cons]; omega) h
        · by_cases hq2 : c = sq ∨ c = dq
          · have hcb : c ≠ '\\' := by rcases hq2 with h1 | h1 <;> rw [h1] <;> decide
            by_cases hcq : c = q
            · rw [hcq, scanStr_self q rest] at h
              cases h
            · cases hss : scanStr c rest with
              | some p =>
                obtain ⟨s, t⟩ := p
                rw [rmcr_quote_some c rest s t hq2 hss]
                have hsplit := scanStr_split c rest s t hss
                rw [scanStr_none_cons q c rest hcq hcb] at h
                rw [hsplit] at h
                have hlen := scanStr_length c rest s t hss
                have hout : scanStr q (s ++ remove_comments_regex t) = none :=
                  scanStr_append_mono q hbq s t (remove_comments_regex t)
                    (fun hh => ihA t (by omega) hh)
                    (fun hh => ihB t (by omega) hh) h
                rw [scanStr_none_cons q c _ hcq hcb]
                exact hout
              | none =>
                rw [rmcr_quote_none c rest hq2 hss]
                rw [scanStr_none_cons q c rest hcq hcb] at h
                rw [scanStr_none_cons q c _ hcq hcb]
                exact ihA rest (by omega) h
          · by_cases hce : c = '\\'
            · subst hce
              rw [rmcr_other '\\' rest (by decide) (by decide)]
              have hm : rest = [] ∨ scanStr q rest.tail = none := by
                cases rest with
                | nil => exact Or.inl rfl
                | cons e t =>
                  rw [scanStr_none_esc q e t hbq] at h
                  exact Or.inr h
              have h3 := ihB rest (by omega) hm
              cases hrm : remove_comments_regex rest with
              | nil =>
                exact scanStr_backslash_nil q hbq
              | cons e' t' =>
                rw [scanStr_none_esc q e' t' hbq]
                rcases h3 with h4 | h4
                · rw [hrm] at h4; cases h4
                · rw [hrm] at h4; exact h4
            · have hcq : c ≠ q := fun hh => hq2 (hh ▸ hq)
              rw [rmcr_other c rest hc hq2]
              rw [scanStr_none_cons q c rest hcq hce] at h
              rw [scanStr_none_cons q c _ hcq hce]
              exact ihA rest (by omega) h
    · intro l hl hm
      cases l with
      | nil => rw [rmcr_nil]; exact Or.inl rfl
      | cons d rest2 =>
        simp only [List.length_cons] at hl
        have H : scanStr q rest2 = none := by
          rcases hm with h1 | h1
          · cases h1
          · exact h1
        right
        by_cases hd : d = '/'
        · subst hd
          cases rest2 with
          | nil => rw [rmcr_slash_nil]; rfl
          | cons e rest3 =>
            simp only [List.length_cons] at hl
            by_cases he : e = '/'
            · subst he
              rw [rmcr_line]
              rw [scanStr_none_cons q '/' rest3 hsq (by decide)] at H
              have h2 := scanStr_none_scanLine q hq rest3 H
              exact ihA (scanLine rest3) (by have := scanLine_length rest3; omega) h2
            · by_cases he2 : e = '*'
              · subst he2
                rw [scanStr_none_cons q '*' rest3 hstq (by decide)] at H
                cases hsb : scanBlock rest3 with
                | some rest4 =>
                  rw [rmcr_block_some rest3 rest4 hsb]
                  have h2 := scanStr_none_scanBlock q hq rest3 rest4 H hsb
                  exact ihA rest4
                    (by have := scanBlock_length rest3 rest4 hsb; omega) h2
                | none =>
                  rw [rmcr_block_none rest3 hsb]
                  rw [rmcr_other '*' rest3 (by decide) (by decide)]
                  show scanStr q ('*' :: remove_comments_regex rest3) = none
                  rw [scanStr_none_cons q '*' _ hstq (by decide)]
                  exact ihA rest3 (by omega) H
              · rw [rmcr_slash_other e rest3 he he2]
                exact ihA (e :: rest3) (by simp only [List.length_cons]; omega) H
        · by_cases hq2 : d = sq ∨ d = dq
          · by_cases hdq : d = q
            · subst hdq
              rw [rmcr_quote_none d rest2 hq2 H]
              exact ihA rest2 (by omega) H
            · cases hss : scanStr d rest2 with
              | some p =>
                obtain ⟨s, t⟩ := p
                rw [rmcr_quote_some d rest2 s t hq2 hss]
                have hsplit := scanStr_split d rest2 s t hss
                rw [hsplit] at H
                have hlen := scanStr_length d rest2 s t hss
                show scanStr q (s ++ remove_comments_regex t) = none
                exact scanStr_append_mono q hbq s t (remove_comments_regex t)
                  (fun hh => ihA t (by omega) hh)
                  (fun hh => ihB t (by omega) hh) H
              | none =>
                rw [rmcr_quote_none d rest2 hq2 hss]
                exact ihA rest2 (by omega) H
          · rw [rmcr_other d rest2 hd hq2]
            exact ihA rest2 (by omega) H

/-- The substitution pass preserves failure of the quote scan. -/
theorem scanStr_none_rmcr (q : Char) (hq : q = sq ∨ q = dq) (l : Str)
    (h : scanStr q l = none) : scanStr q (remove_comments_regex l) = none :=
  (scanStr_none_rmcr_aux q hq l.length).1 l le_rfl h

/-- The stripped form of a nonempty input is nonempty and starts with the
original head character or with the space substituted for a comment. -/
theorem rmcr_cons_shape (c : Char) (rest : Str) :
    ∃ t, remove_comments_regex (c :: rest) = c :: t ∨
      remove_comments_regex (c :: rest) = ' ' :: t := by
  by_cases hc : c = '/'
  · subst hc
    cases rest with
    | nil => exact ⟨[], Or.inl rfl⟩
    | cons d rest2 =>
      by_cases hd : d = '/'
      · subst hd
        rw [rmcr_line]
        exact ⟨_, Or.inr rfl⟩
      · by_cases hd2 : d = '*'
        · subst hd2
          cases hsb : scanBlock rest2 with
          | some r3 =>
            rw [rmcr_block_some rest2 r3 hsb]
            exact ⟨_, Or.inr rfl⟩
          | none =>
            rw [rmcr_block_none rest2 hsb]
            exact ⟨_, Or.inl rfl⟩
        · rw [rmcr_slash_other d rest2 hd hd2]
          exact ⟨_, Or.inl rfl⟩
  · by_cases hq : c = sq ∨ c = dq
    · cases hss : scanStr c rest with
      | some p =>
        obtain ⟨s, t⟩ := p
        rw [rmcr_quote_some c rest s t hq hss]
        exact ⟨_, Or.inl rfl⟩
      | none =>
        rw [rmcr_quote_none c rest hq hss]
        exact ⟨_, Or.inl rfl⟩
    · rw [rmcr_other c rest hc hq]
      exact ⟨_, Or.inl rfl⟩

theorem rmc_idem_aux : ∀ (n : Nat) (l : Str), l.length ≤ n →
    remove_comments_regex (remove_comments_regex l) = remove_comments_regex l := by
  intro n
  induction n with
  | zero =>
    intro l hl
    match l, hl with
    | [], _ => rfl
  | succ n ih =>
    intro l hl
    cases l with
    | nil => rfl
    | cons c rest =>
      simp only [List.length_cons] at hl
      by_cases hc : c = '/'
      · subst hc
        cases rest with
        | nil => rfl
        | cons d rest2 =>
          simp only [List.length_cons] at hl
          by_cases hd : d = '/'
          · subst hd
            rw [rmcr_line]
            rw [rmcr_other ' ' _ (by decide) (by decide)]
            rw [ih (scanLine rest2) (by have := scanLine_length rest2; omega)]
          · by_cases hd2 : d = '*'
            · subst hd2
              cases hsb : scanBlock rest2 with
              | some rest3 =>
                rw [rmcr_block_some rest2 rest3 hsb]
                rw [rmcr_other ' ' _ (by decide) (by decide)]
                rw [ih rest3 (by have := scanBlock_length rest2 rest3 hsb; omega)]
              | none =>
                rw [rmcr_block_none rest2 hsb]
                rw [rmcr_other '*' rest2 (by decide) (by decide)]
                have hsb2 : scanBlock (remove_comments_regex rest2) = none :=
                  sbn_rmcr rest2 hsb
                rw [rmcr_block_none (remove_comments_regex rest2) hsb2]
                rw [rmcr_other '*' (remove_comments_regex rest2) (by decide) (by decide)]
                rw [ih rest2 (by omega)]
            · rw [rmcr_slash_other d rest2 hd hd2]
              obtain ⟨t, ht | ht⟩ := rmcr_cons_shape d rest2
              · rw [ht, rmcr_slash_other d t hd hd2, ← ht,
                  ih (d :: rest2) (by simp only [List.length_cons]; omega)]
              · rw [ht, rmcr_slash_other ' ' t (by decide) (by decide), ← ht,
                  ih (d :: rest2) (by simp only [List.length_cons]; omega)]
      · by_cases hq2 : c = sq ∨ c = dq
        · cases hss : scanStr c rest with
          | some p =>
            obtain ⟨s, t⟩ := p
            rw [rmcr_quote_some c rest s t hq2 hss]
            have hrs : scanStr c (s ++ remove_comments_regex t) =
                some (s, remove_comments_regex t) :=
              scanStr_replace c rest s t hss (remove_comments_regex t)
            rw [rmcr_quote_some c (s ++ remove_comments_regex t) s
              (remove_comments_regex t) hq2 hrs]
            rw [ih t (by have := scanStr_length c rest s t hss; omega)]
          | none =>
            rw [rmcr_quote_none c rest hq2 hss]
            have hrn : scanStr c (remove_comments_regex rest) = none :=
              scanStr_none_rmcr c hq2 rest hss
            rw [rmcr_quote_none c (remove_comments_regex rest) hq2 hrn]
            rw [ih rest (by omega)]
        · rw [rmcr_other c rest hc hq2]
          rw [rmcr_other c (remove_comments_regex rest) hc hq2]
          rw [ih rest (by omega)]

/-- The regex comment stripper is idempotent: a second pass over the
stripped output changes nothing. -/
theorem rmc_idempotent (l : Str) :
    remove_comments_regex (remove_comments_regex l) = remove_comments_regex l :=
  rmc_idem_aux l.length l le_rfl

/-- With no comment spans (the situation a re-parse of already-stripped
output would report), the tree-accurate stripper is the identity, so
idempotence of `remove_comments_ast` reduces entirely to the external
parser reporting no comment nodes on the stripped output. -/
theorem rca_empty_spans_id (code : Str) : remove_comments_ast code [] = code := by
  show code.drop 0 = code
  exact List.drop_zero code

end Vuddy
